import Mathlib

/-!
Verification of the verbosa configuration-driven tabular normalization
engine: a shallow embedding of `verbosa/interfaces/column_config.py`,
`verbosa/interfaces/columns_config.py` and
`verbosa/data/normalizers/tabular_data.py`, with theorems settling the
spec's claims about them.

Modelling conventions:
- Python dynamic values are the inductive `Val`; machine floats are
  carried as rationals (no float rounding is exercised by any claim).
- Mappings are association lists of `Val × Val` pairs; a list that
  represents a real Python `dict` has pairwise-distinct keys.
- Where Python would raise (`KeyError`, `TypeError`, `ValueError`), the
  embedding returns `Except.error`.
-/

namespace Verbosa

/-- Model of a dynamic Python value as they flow through the
configuration layer: scalars, compiled regex patterns (`re.Pattern`,
identified by their source string), timestamps (`pd.Timestamp`,
identified by their input string), lists, tuples, sets, frozensets,
mappings, `None` and the `pd.NA` missing sentinel. -/
inductive Val : Type where
  | vnone : Val
  | vNA : Val
  | vbool (b : Bool) : Val
  | vint (n : Int) : Val
  | vfloat (q : Rat) : Val
  | vstr (s : String) : Val
  | vpattern (source : String) : Val
  | vtimestamp (ts : String) : Val
  | vlist (xs : List Val) : Val
  | vtuple (xs : List Val) : Val
  | vset (xs : List Val) : Val
  | vfrozenset (xs : List Val) : Val
  | vdict (kvs : List (Val × Val)) : Val
  deriving Repr

namespace Val

mutual

/-- Structural (syntactic) equality test on `Val`, the basis of the
`DecidableEq` instance. -/
def beq : Val → Val → Bool
  | .vnone, .vnone => true
  | .vNA, .vNA => true
  | .vbool a, .vbool b => a == b
  | .vint a, .vint b => a == b
  | .vfloat a, .vfloat b => a == b
  | .vstr a, .vstr b => a == b
  | .vpattern a, .vpattern b => a == b
  | .vtimestamp a, .vtimestamp b => a == b
  | .vlist a, .vlist b => beqList a b
  | .vtuple a, .vtuple b => beqList a b
  | .vset a, .vset b => beqList a b
  | .vfrozenset a, .vfrozenset b => beqList a b
  | .vdict a, .vdict b => beqPairs a b
  | _, _ => false

def beqList : List Val → List Val → Bool
  | [], [] => true
  | x :: xs, y :: ys => beq x y && beqList xs ys
  | _, _ => false

def beqPairs : List (Val × Val) → List (Val × Val) → Bool
  | [], [] => true
  | (k, v) :: xs, (k', v') :: ys => beq k k' && beq v v' && beqPairs xs ys
  | _, _ => false

end

/-- Strong induction principle for the nested inductive `Val`. -/
theorem inductionOn (P : Val → Prop)
    (hnone : P .vnone) (hNA : P .vNA)
    (hbool : ∀ b, P (.vbool b)) (hint : ∀ n, P (.vint n))
    (hfloat : ∀ q, P (.vfloat q)) (hstr : ∀ s, P (.vstr s))
    (hpattern : ∀ s, P (.vpattern s)) (htimestamp : ∀ s, P (.vtimestamp s))
    (hlist : ∀ xs, (∀ x ∈ xs, P x) → P (.vlist xs))
    (htuple : ∀ xs, (∀ x ∈ xs, P x) → P (.vtuple xs))
    (hset : ∀ xs, (∀ x ∈ xs, P x) → P (.vset xs))
    (hfrozenset : ∀ xs, (∀ x ∈ xs, P x) → P (.vfrozenset xs))
    (hdict : ∀ kvs, (∀ kv ∈ kvs, P kv.1 ∧ P kv.2) → P (.vdict kvs)) :
    ∀ v, P v := by
  have key : ∀ n (v : Val), sizeOf v ≤ n → P v := by
    intro n
    induction n with
    | zero => intro v hv; cases v <;> simp at hv
    | succ n ih =>
      intro v hv
      cases v with
      | vnone => exact hnone
      | vNA => exact hNA
      | vbool b => exact hbool b
      | vint m => exact hint m
      | vfloat q => exact hfloat q
      | vstr s => exact hstr s
      | vpattern s => exact hpattern s
      | vtimestamp s => exact htimestamp s
      | vlist xs =>
        refine hlist xs (fun x hx => ih x ?_)
        have h1 := List.sizeOf_lt_of_mem hx
        simp only [Val.vlist.sizeOf_spec] at hv
        omega
      | vtuple xs =>
        refine htuple xs (fun x hx => ih x ?_)
        have h1 := List.sizeOf_lt_of_mem hx
        simp only [Val.vtuple.sizeOf_spec] at hv
        omega
      | vset xs =>
        refine hset xs (fun x hx => ih x ?_)
        have h1 := List.sizeOf_lt_of_mem hx
        simp only [Val.vset.sizeOf_spec] at hv
        omega
      | vfrozenset xs =>
        refine hfrozenset xs (fun x hx => ih x ?_)
        have h1 := List.sizeOf_lt_of_mem hx
        simp only [Val.vfrozenset.sizeOf_spec] at hv
        omega
      | vdict kvs =>
        refine hdict kvs (fun kv hkv => ?_)
        have h1 := List.sizeOf_lt_of_mem hkv
        have h2 : sizeOf kv.1 < sizeOf kv ∧ sizeOf kv.2 < sizeOf kv := by
          obtain ⟨a, b⟩ := kv
          simp only [Prod.mk.sizeOf_spec]
          omega
        simp only [Val.vdict.sizeOf_spec] at hv
        exact ⟨ih kv.1 (by omega), ih kv.2 (by omega)⟩
  exact fun v => key (sizeOf v) v le_rfl

theorem beq_iff_eq : ∀ a b : Val, beq a b = true ↔ a = b := by
  have main : ∀ a : Val, ∀ b : Val, beq a b = true ↔ a = b := by
    intro a
    induction a using inductionOn with
    | hnone => intro b; cases b <;> simp [beq]
    | hNA => intro b; cases b <;> simp [beq]
    | hbool x => intro b; cases b <;> simp [beq]
    | hint x => intro b; cases b <;> simp [beq]
    | hfloat x => intro b; cases b <;> simp [beq]
    | hstr x => intro b; cases b <;> simp [beq]
    | hpattern x => intro b; cases b <;> simp [beq]
    | htimestamp x => intro b; cases b <;> simp [beq]
    | hlist xs ih =>
      intro b; cases b <;> simp [beq]
      case vlist ys =>
        induction xs generalizing ys with
        | nil => cases ys <;> simp [beqList]
        | cons x xs ihl =>
          cases ys with
          | nil => simp [beqList]
          | cons y ys =>
            simp only [beqList, Bool.and_eq_true, List.cons.injEq]
            rw [ih x (by simp), ihl (fun z hz => ih z (by simp [hz])) ys]
    | htuple xs ih =>
      intro b; cases b <;> simp [beq]
      case vtuple ys =>
        induction xs generalizing ys with
        | nil => cases ys <;> simp [beqList]
        | cons x xs ihl =>
          cases ys with
          | nil => simp [beqList]
          | cons y ys =>
            simp only [beqList, Bool.and_eq_true, List.cons.injEq]
            rw [ih x (by simp), ihl (fun z hz => ih z (by simp [hz])) ys]
    | hset xs ih =>
      intro b; cases b <;> simp [beq]
      case vset ys =>
        induction xs generalizing ys with
        | nil => cases ys <;> simp [beqList]
        | cons x xs ihl =>
          cases ys with
          | nil => simp [beqList]
          | cons y ys =>
            simp only [beqList, Bool.and_eq_true, List.cons.injEq]
            rw [ih x (by simp), ihl (fun z hz => ih z (by simp [hz])) ys]
    | hfrozenset xs ih =>
      intro b; cases b <;> simp [beq]
      case vfrozenset ys =>
        induction xs generalizing ys with
        | nil => cases ys <;> simp [beqList]
        | cons x xs ihl =>
          cases ys with
          | nil => simp [beqList]
          | cons y ys =>
            simp only [beqList, Bool.and_eq_true, List.cons.injEq]
            rw [ih x (by simp), ihl (fun z hz => ih z (by simp [hz])) ys]
    | hdict kvs ih =>
      intro b; cases b <;> simp [beq]
      case vdict ws =>
        induction kvs generalizing ws with
        | nil => cases ws <;> simp [beqPairs]
        | cons kv kvs ihl =>
          cases ws with
          | nil => obtain ⟨k, v⟩ := kv; simp [beqPairs]
          | cons w ws =>
            obtain ⟨k, v⟩ := kv
            obtain ⟨k', v'⟩ := w
            simp only [beqPairs, Bool.and_eq_true, List.cons.injEq,
              Prod.mk.injEq]
            rw [(ih (k, v) (by simp)).1 k', (ih (k, v) (by simp)).2 v',
              ihl (fun z hz => ih z (by simp [hz])) ws]
  exact main

instance : DecidableEq Val := fun a b =>
  decidable_of_iff (beq a b = true) (beq_iff_eq a b)

/-- Numeric view of a value: Python compares `bool`, `int` and `float`
numerically (`True == 1`, `1 == 1.0`). -/
def numVal : Val → Option Rat
  | .vbool b => some (if b then 1 else 0)
  | .vint n => some n
  | .vfloat q => some q
  | _ => none

/-- Lexicographic measure behind the key order: a kind class (numeric
kinds share one class, since Python compares them by value), a numeric
part, and a string part. -/
def keyMeasure : Val → Nat × Rat × String
  | .vnone => (0, 0, "")
  | .vNA => (1, 0, "")
  | .vbool b => (2, if b then 1 else 0, "")
  | .vint n => (2, n, "")
  | .vfloat q => (2, q, "")
  | .vstr s => (5, 0, s)
  | .vpattern p => (6, 0, p)
  | .vtimestamp t => (7, 0, t)
  | .vlist _ => (8, 0, "")
  | .vtuple _ => (9, 0, "")
  | .vset _ => (10, 0, "")
  | .vfrozenset _ => (11, 0, "")
  | .vdict _ => (12, 0, "")

/-- Order on mapping keys used by `sorted` in `_freeze` and
`CallSpec.from_map`: numbers numerically (booleans count as 0/1, as in
Python), strings lexicographically.  Python raises `TypeError` for
keys of mixed kinds; the kind class totalizes the order there, and is
never exercised by the claims (configuration keys are strings).
Timestamp keys are ordered by their input string rather than by
instant; no claim sorts them. -/
def keyLE (a b : Val) : Bool :=
  let ma := keyMeasure a
  let mb := keyMeasure b
  decide (ma.1 < mb.1) ||
    (ma.1 == mb.1 &&
      (decide (ma.2.1 < mb.2.1) ||
        (ma.2.1 == mb.2.1 && decide (ma.2.2 ≤ mb.2.2))))

mutual

/-- Python `==` between two modelled values: numeric kinds compare by
value, sequences elementwise, sets extensionally (a `set` equals a
`frozenset` with the same elements), mappings by key lookup.  Compiled
patterns compare by their source and timestamps by their input string
(a harmless refinement of CPython's identity / instant comparison that
no claim exercises). -/
def pyEq : Val → Val → Bool
  | .vnone, .vnone => true
  | .vNA, .vNA => true
  | .vstr a, .vstr b => a == b
  | .vpattern a, .vpattern b => a == b
  | .vtimestamp a, .vtimestamp b => a == b
  | .vlist a, .vlist b => pyEqList a b
  | .vtuple a, .vtuple b => pyEqList a b
  | .vset a, .vset b => pyEqSub a b && pyEqSub b a
  | .vset a, .vfrozenset b => pyEqSub a b && pyEqSub b a
  | .vfrozenset a, .vset b => pyEqSub a b && pyEqSub b a
  | .vfrozenset a, .vfrozenset b => pyEqSub a b && pyEqSub b a
  | .vdict a, .vdict b => a.length == b.length && pyEqPairsIn a b
  | a, b =>
    match numVal a, numVal b with
    | some x, some y => x == y
    | _, _ => false
termination_by a b => sizeOf a + sizeOf b
decreasing_by all_goals (simp_wf; try omega)

def pyEqList : List Val → List Val → Bool
  | [], [] => true
  | x :: xs, y :: ys => pyEq x y && pyEqList xs ys
  | _, _ => false
termination_by a b => sizeOf a + sizeOf b
decreasing_by all_goals (simp_wf; try omega)

def pyEqMem : Val → List Val → Bool
  | _, [] => false
  | x, y :: ys => pyEq x y || pyEqMem x ys
termination_by x ys => sizeOf x + sizeOf ys
decreasing_by all_goals (simp_wf; try omega)

def pyEqSub : List Val → List Val → Bool
  | [], _ => true
  | x :: xs, ys => pyEqMem x ys && pyEqSub xs ys
termination_by xs ys => sizeOf xs + sizeOf ys
decreasing_by all_goals (simp_wf; try omega)

def pyEqPairsIn : List (Val × Val) → List (Val × Val) → Bool
  | [], _ => true
  | (k, v) :: rest, b => pyEqFind k v b && pyEqPairsIn rest b
termination_by a b => sizeOf a + sizeOf b
decreasing_by all_goals (simp_wf; try omega)

def pyEqFind : Val → Val → List (Val × Val) → Bool
  | _, _, [] => false
  | k, v, (k', v') :: rest =>
    if pyEq k k' then pyEq v v' else pyEqFind k v rest
termination_by k v b => sizeOf k + sizeOf v + sizeOf b
decreasing_by all_goals (simp_wf; try omega)

end

/-- Python `dict` assignment `d[k] = v`: overwrite the value in place if
an equal key exists (the original key object is kept), else append. -/
def pyDictInsert (kvs : List (Val × Val)) (k v : Val) : List (Val × Val) :=
  if kvs.any (fun kv => pyEq kv.1 k) then
    kvs.map (fun kv => if pyEq kv.1 k then (kv.1, v) else kv)
  else kvs ++ [(k, v)]

/-- Python `dict` built from a sequence of key-value pairs (dict
comprehension semantics: first occurrence fixes the position, the last
occurrence supplies the value). -/
def pyDictOfPairs (ps : List (Val × Val)) : List (Val × Val) :=
  ps.foldl (fun acc kv => pyDictInsert acc kv.1 kv.2) []

/-- Python `set` built from a sequence (set comprehension semantics:
keep the first of any group of `==`-equal elements). -/
def pySetOfList (xs : List Val) : List Val :=
  xs.foldl (fun acc x => if acc.any (fun y => pyEq y x) then acc else acc ++ [x]) []

end Val

/-! ### `_cast_string`: the string-literal caster (`column_config.py`) -/

/-- Tail check of `_CASTING_PATTERN`: the string must end with `')`
with at least one value character before it; returns the value part. -/
def stripCastTail (rest : List Char) : Option (List Char) :=
  match rest.reverse with
  | ')' :: '\'' :: c :: more => some (c :: more).reverse
  | _ => none

/-- Scanner for `_CASTING_PATTERN` = `^(?P<dtype>.+?)\('(?P<value>.+?)'\)$`
(`fullmatch` with lazy groups): the dtype is the shortest nonempty
prefix followed by `('` such that the rest of the string supplies a
nonempty value terminated by `')` at the very end. -/
def scanCast : List Char → List Char → Option (String × String)
  | _, [] => none
  | pre, c :: rest =>
    if c = '(' then
      match rest with
      | [] => none
      | q :: rest2 =>
        if q = '\'' ∧ pre ≠ [] then
          match stripCastTail rest2 with
          | some value => some (⟨pre.reverse⟩, ⟨value⟩)
          | none => scanCast (c :: pre) rest
        else scanCast (c :: pre) rest
    else scanCast (c :: pre) rest

/-- Python `str.strip()`: drop leading and trailing whitespace. -/
def pyStrip (s : String) : String :=
  ⟨((s.data.dropWhile Char.isWhitespace).reverse.dropWhile
      Char.isWhitespace).reverse⟩

/-- `_CASTING_PATTERN.fullmatch` followed by `.strip()` of both groups. -/
def parseCasting (s : String) : Option (String × String) :=
  (scanCast [] s.data).map (fun dv => (pyStrip dv.1, pyStrip dv.2))

/-- `_cast_string`: decode a recognized `"<Type>('<value>')"` textual
encoding into a typed value; non-strings, unrecognized syntax and
unknown type names pass through unchanged. -/
def castString (v : Val) : Val :=
  match v with
  | .vstr s =>
    match parseCasting s with
    | some (dtype, value) =>
      if dtype = "re.Pattern" then .vpattern value
      else if dtype = "pd.Timestamp" then .vtimestamp value
      else .vstr s
    | none => .vstr s
  | v => v

/-! ### `_freeze` and `_unfreeze` (`column_config.py`) -/

/-- Sort key-value pairs by key, as `sorted` does in `_freeze` and
`CallSpec.from_map` (a real `dict` has pairwise-distinct keys, so only
the key part of Python's tuple comparison ever decides). -/
def sortPairsByKey (kvs : List (Val × Val)) : List (Val × Val) :=
  List.insertionSort (fun p q => Val.keyLE p.1 q.1 = true) kvs

mutual

/-- `_freeze`: convert a value into a hashable equivalent recursively —
mappings to key-sorted tuples of pairs, lists and tuples to tuples,
sets to frozensets; everything else (including `frozenset`, which is
not an `isinstance` of `set`) passes through unchanged.  The source's
`map_sort_key` argument is only ever passed down, never used to sort,
so it is omitted. -/
def freeze : Val → Val
  | .vdict kvs =>
    .vtuple ((sortPairsByKey (freezePairs kvs)).map
      (fun kv => Val.vtuple [kv.1, kv.2]))
  | .vlist xs => .vtuple (freezeList xs)
  | .vtuple xs => .vtuple (freezeList xs)
  | .vset xs => .vfrozenset (Val.pySetOfList (freezeList xs))
  | v => v

def freezeList : List Val → List Val
  | [] => []
  | x :: xs => freeze x :: freezeList xs

def freezePairs : List (Val × Val) → List (Val × Val)
  | [] => []
  | kv :: kvs => (kv.1, freeze kv.2) :: freezePairs kvs

end

/-- The `len(item) == 2` tuple test of `_unfreeze`'s mapping branch. -/
def isPair2 : Val → Bool
  | .vtuple [_, _] => true
  | _ => false

mutual

/-- `_unfreeze`: reconstruct mutable values from frozen ones — a
nonempty tuple consisting solely of 2-tuples becomes a mapping, any
other tuple becomes a list, a frozenset becomes a set; everything else
passes through unchanged. -/
def unfreeze : Val → Val
  | .vtuple xs =>
    if !xs.isEmpty && xs.all isPair2 then
      .vdict (Val.pyDictOfPairs (unfreezePairs xs))
    else .vlist (unfreezeList xs)
  | .vfrozenset xs => .vset (Val.pySetOfList (unfreezeList xs))
  | v => v

def unfreezeList : List Val → List Val
  | [] => []
  | x :: xs => unfreeze x :: unfreezeList xs

def unfreezePairs : List Val → List (Val × Val)
  | [] => []
  | .vtuple [k, v] :: rest => (k, unfreeze v) :: unfreezePairs rest
  | _ :: rest => unfreezePairs rest

end

/-! ### `CallSpec` (`column_config.py`) -/

mutual

/-- Python `repr` of a modelled value (used by `str(item)` inside
`CallSpec.to_hash`).  Cosmetic deviations (float formatting, string
escaping) do not affect any claim: the claims only compare hashes of
structurally equal specs. -/
def pyRepr : Val → String
  | .vnone => "None"
  | .vNA => "<NA>"
  | .vbool b => if b then "True" else "False"
  | .vint n => toString n
  | .vfloat q => toString q
  | .vstr s => "'" ++ s ++ "'"
  | .vpattern p => "re.compile('" ++ p ++ "')"
  | .vtimestamp t => "Timestamp('" ++ t ++ "')"
  | .vlist xs => "[" ++ pyReprJoin xs ++ "]"
  | .vtuple [x] => "(" ++ pyRepr x ++ ",)"
  | .vtuple xs => "(" ++ pyReprJoin xs ++ ")"
  | .vset [] => "set()"
  | .vset xs => "\x7b" ++ pyReprJoin xs ++ "\x7d"
  | .vfrozenset [] => "frozenset()"
  | .vfrozenset xs => "frozenset(\x7b" ++ pyReprJoin xs ++ "\x7d)"
  | .vdict kvs => "\x7b" ++ pyReprJoinPairs kvs ++ "\x7d"

def pyReprJoin : List Val → String
  | [] => ""
  | [x] => pyRepr x
  | x :: xs => pyRepr x ++ ", " ++ pyReprJoin xs

def pyReprJoinPairs : List (Val × Val) → String
  | [] => ""
  | [kv] => pyRepr kv.1 ++ ": " ++ pyRepr kv.2
  | kv :: kvs => pyRepr kv.1 ++ ": " ++ pyRepr kv.2 ++ ", " ++ pyReprJoinPairs kvs

end

/-- `CallSpec`: a hashable "method call" specification — a method name
plus parameters stored as an ordered list of (key, value) pairs.  The
frozen dataclass has structural value equality, which `DecidableEq`
mirrors. -/
structure CallSpec where
  method_name : String
  params : List (Val × Val)
  deriving Repr, DecidableEq

namespace CallSpec

/-- `CallSpec.from_map` with the default `sort_key` (sort by key): for
`None` or a non-mapping, a spec with empty params; for a mapping, each
value is passed through `_cast_string` then `_freeze`, and the pairs
are sorted by key. -/
def from_map (method_name : String) (params : Val) : CallSpec :=
  match params with
  | .vnone => ⟨method_name, []⟩
  | .vdict kvs =>
    ⟨method_name,
      sortPairsByKey (kvs.map (fun kv => (kv.1, freeze (castString kv.2))))⟩
  | _ => ⟨method_name, []⟩

/-- `CallSpec.params_to_dict`: rebuild a mapping from the canonical
pairs, unfreezing each value. -/
def params_to_dict (cs : CallSpec) : List (Val × Val) :=
  Val.pyDictOfPairs (cs.params.map (fun kv => (kv.1, unfreeze kv.2)))

/-- `CallSpec.to_hash`: `"<method>"` without params, otherwise
`"<method>: (k1, v1) - (k2, v2) - ..."` over the stored pair order. -/
def to_hash (cs : CallSpec) : String :=
  if cs.params = [] then cs.method_name
  else
    cs.method_name ++ ": " ++
      String.intercalate " - "
        (cs.params.map (fun kv => pyRepr (Val.vtuple [kv.1, kv.2])))

end CallSpec

/-! ### `ColumnConfig` (`column_config.py`) -/

/-- The shapes accepted for the `reviews` / `normalization` fields:
`None`, a bare method-name string, a mapping of method name to
parameter value, an already-parsed tuple of `CallSpec`, or anything
else (a fatal `TypeError`). -/
inductive PipelineInput where
  | pnone : PipelineInput
  | pstr (s : String) : PipelineInput
  | pmap (kvs : List (String × Val)) : PipelineInput
  | pspecs (specs : List CallSpec) : PipelineInput
  | pother (v : Val) : PipelineInput
  deriving Repr, DecidableEq

/-- `ColumnConfig._parse_pipeline`: checks, in source order, `None`,
already-parsed tuple of `CallSpec` (an empty tuple also lands here),
bare string, mapping; any other shape raises `TypeError`. -/
def parsePipeline : PipelineInput → Except String (Option (List CallSpec))
  | .pnone => .ok none
  | .pspecs specs => .ok (some specs)
  | .pstr s => .ok (some [CallSpec.from_map s .vnone])
  | .pmap kvs => .ok (some (kvs.map (fun kv => CallSpec.from_map kv.1 kv.2)))
  | .pother _ => .error "TypeError: Invalid pipeline type"

/-- The shapes accepted for the `aliases` field. -/
inductive AliasesInput where
  | anone : AliasesInput
  | astr (s : String) : AliasesInput
  | aseq (xs : List String) : AliasesInput
  | aother (v : Val) : AliasesInput
  deriving Repr, DecidableEq

/-- Python `set.add`: insert an element when no equal one is present
(sets are unordered; the model keeps first-insertion order, which no
consumer observes beyond membership). -/
def setAdd (xs : List String) (x : String) : List String :=
  if x ∈ xs then xs else xs ++ [x]

/-- Python `set(xs)` over strings: deduplicate, keeping first
occurrences. -/
def setOfList (xs : List String) : List String :=
  xs.foldl setAdd []

/-- Aliases normalization of `__post_init__` step 1 (before the main
name is inserted): a bare string becomes a singleton, a sequence
becomes a set, `None` and invalid shapes become empty (with a logged
warning). -/
def aliasesOf : AliasesInput → List String
  | .anone => []
  | .astr s => [s]
  | .aseq xs => setOfList xs
  | .aother _ => []

/-- The shapes accepted for the `na_values` field.  Note that a bare
string is an `isinstance` of `Sequence`, so `__post_init__` iterates
its characters. -/
inductive NAValuesInput where
  | nnone : NAValuesInput
  | nstr (s : String) : NAValuesInput
  | nseq (xs : List Val) : NAValuesInput
  | nscalar (v : Val) : NAValuesInput
  deriving Repr, DecidableEq

/-- `__post_init__` step 2: cast every na value through `_cast_string`
and store as a tuple (a single non-sequence value is promoted to a
1-tuple; a bare string, being a `Sequence`, is exploded into its
characters). -/
def naValuesOf : NAValuesInput → Option (List Val)
  | .nnone => none
  | .nstr s => some (s.data.map (fun c => castString (.vstr ⟨[c]⟩)))
  | .nseq xs => some (xs.map castString)
  | .nscalar v => some [castString v]

/-- A `ColumnConfig` after `__post_init__` has run: aliases are a set
containing the name, na values a cast tuple, fill value cast, and both
pipelines parsed into `CallSpec` tuples. -/
structure ColumnConfig where
  name : String
  dtype : String
  description : Option String
  aliases : List String
  na_values : Option (List Val)
  fill_na : Option Val
  reviews : Option (List CallSpec)
  normalization : Option (List CallSpec)
  deriving Repr, DecidableEq

/-- The raw constructor arguments of `ColumnConfig`. -/
structure ColumnConfigInput where
  name : String
  dtype : String
  description : Option String
  aliases : AliasesInput
  na_values : NAValuesInput
  fill_na : Option Val
  reviews : PipelineInput
  normalization : PipelineInput
  deriving Repr, DecidableEq

/-- `ColumnConfig(...)` construction including `__post_init__`; a
pipeline of invalid shape is a fatal `TypeError`.  (`reviews` is parsed
before `normalization`, as in the source.) -/
def mkColumnConfig (inp : ColumnConfigInput) : Except String ColumnConfig :=
  match parsePipeline inp.reviews with
  | .error e => .error e
  | .ok revs =>
  match parsePipeline inp.normalization with
  | .error e => .error e
  | .ok norm =>
  .ok {
    name := inp.name
    dtype := inp.dtype
    description := inp.description
    aliases := setAdd (aliasesOf inp.aliases) inp.name
    na_values := naValuesOf inp.na_values
    fill_na := inp.fill_na.map castString
    reviews := revs
    normalization := norm }

/-- Python `dict` update keyed by strings (`d[k] = v`). -/
def strDictInsert {α : Type} (kvs : List (String × α)) (k : String) (v : α) :
    List (String × α) :=
  if kvs.any (fun kv => kv.1 == k) then
    kvs.map (fun kv => if kv.1 == k then (kv.1, v) else kv)
  else kvs ++ [(k, v)]

/-- Python `dict` built from string-keyed pairs (comprehension
semantics: first occurrence fixes the position, the last occurrence
supplies the value). -/
def strDictOfPairs {α : Type} (ps : List (String × α)) : List (String × α) :=
  ps.foldl (fun acc kv => strDictInsert acc kv.1 kv.2) []

/-- `ColumnConfig._pipeline_to_yaml`: `None`; a bare method name if the
pipeline is a single spec without params; otherwise a mapping from
method name to the spec's `params_to_dict()` (a Python dict, so later
steps with the same method name overwrite earlier ones). -/
def pipelineToYaml : Option (List CallSpec) → PipelineInput
  | none => .pnone
  | some [spec] =>
    if spec.params = [] then .pstr spec.method_name
    else .pmap (strDictOfPairs [(spec.method_name,
      Val.vdict (CallSpec.params_to_dict spec))])
  | some pipeline =>
    .pmap (strDictOfPairs (pipeline.map
      (fun spec => (spec.method_name, Val.vdict (CallSpec.params_to_dict spec)))))

/-- The mapping produced by `ColumnConfig.to_dict` (one entry per
field; `aliases` is `tuple(set)`, the stored set in its model
iteration order). -/
structure ColumnConfigDict where
  name : String
  dtype : String
  description : Option String
  aliases : List String
  na_values : Option (List Val)
  fill_na : Option Val
  reviews : PipelineInput
  normalization : PipelineInput
  deriving Repr, DecidableEq

/-- `ColumnConfig.to_dict`. -/
def ColumnConfig.to_dict (c : ColumnConfig) : ColumnConfigDict where
  name := c.name
  dtype := c.dtype
  description := c.description
  aliases := c.aliases
  na_values := c.na_values
  fill_na := c.fill_na
  reviews := pipelineToYaml c.reviews
  normalization := pipelineToYaml c.normalization

/-- `ColumnConfig.from_dict`: rebuild a config from a name and a
`to_dict()`-shaped mapping (each field is read back and goes through
`__post_init__` again). -/
def ColumnConfig.from_dict (name : String) (data : ColumnConfigDict) :
    Except String ColumnConfig :=
  mkColumnConfig {
    name := name
    dtype := data.dtype
    description := data.description
    aliases := .aseq data.aliases
    na_values := match data.na_values with
      | none => .nnone
      | some xs => .nseq xs
    fill_na := data.fill_na
    reviews := data.reviews
    normalization := data.normalization }

/-- The round trip of claim C6: rebuild a config from its own
serialized form, using its own name. -/
def roundTrip (c : ColumnConfig) : Except String ColumnConfig :=
  ColumnConfig.from_dict c.name (ColumnConfig.to_dict c)

/-! ### `ColumnsConfig` (`columns_config.py`) -/

/-- `ColumnsConfig`: the collection-level configuration.  The `columns`
field is the source's `_columns` tuple of `ColumnConfig` (the source's
`columns` attribute of names is `columnNames` below). -/
structure ColumnsConfig where
  name : String
  description : String
  author : String
  date : String
  columns : List ColumnConfig
  deriving Repr, DecidableEq

/-- One insertion step of `_build_index`: the first column to claim an
alias wins; a later claim is logged and dropped. -/
def indexAdd (idx : List (String × ColumnConfig)) (a : String)
    (col : ColumnConfig) : List (String × ColumnConfig) :=
  if idx.any (fun e => e.1 == a) then idx else idx ++ [(a, col)]

/-- `ColumnsConfig._build_index`: for each column in declaration order,
insert every alias that is not yet claimed.  (Python iterates the alias
set in unspecified order; within one column every alias maps to the
same column, so the stored order is observation-equal.) -/
def buildIndex (cols : List ColumnConfig) : List (String × ColumnConfig) :=
  cols.foldl
    (fun idx col => col.aliases.foldl (fun i a => indexAdd i a col) idx)
    []

/-- `ColumnsConfig.__getitem__` restricted to string keys: index lookup
by name or alias; an unknown key is a `KeyError`.  (A non-string key is
a `TypeError` before the lookup; the claims only look up strings.) -/
def ColumnsConfig.getitem (cfg : ColumnsConfig) (key : String) :
    Except String ColumnConfig :=
  match (buildIndex cfg.columns).lookup key with
  | some col => .ok col
  | none => .error ("KeyError: Column " ++ key ++ " not found")

/-- `ColumnsConfig.__contains__` for string keys: membership in the
alias index (a non-string key returns `False` without raising). -/
def ColumnsConfig.hasKey (cfg : ColumnsConfig) (key : String) : Bool :=
  (buildIndex cfg.columns).any (fun e => e.1 == key)

/-- `ColumnsConfig.__iter__`: primary column names in declaration
order (also the source's `columns` attribute). -/
def ColumnsConfig.columnNames (cfg : ColumnsConfig) : List String :=
  cfg.columns.map (·.name)

/-- `OrderedDict.setdefault(key, []).append(name)`: append a name to
the group of `key`, creating the group at the end on first use. -/
def groupAppend {κ : Type} [DecidableEq κ] (groups : List (κ × List String))
    (key : κ) (nm : String) : List (κ × List String) :=
  if groups.any (fun g => decide (g.1 = key)) then
    groups.map (fun g => if g.1 = key then (g.1, g.2 ++ [nm]) else g)
  else groups ++ [(key, [nm])]

/-- `ColumnsConfig.group_by_normalization`: group columns by each
individual normalization step; columns without a pipeline are
skipped. -/
def ColumnsConfig.group_by_normalization (cfg : ColumnsConfig) :
    List (CallSpec × List String) :=
  cfg.columns.foldl
    (fun groups col =>
      match col.normalization with
      | none => groups
      | some pipeline =>
        pipeline.foldl (fun gs spec => groupAppend gs spec col.name) groups)
    []

/-- `ColumnsConfig.group_by_normalization_pipeline`: group columns by
their full pipeline; `col.normalization or ()` maps `None` to the
empty tuple. -/
def ColumnsConfig.group_by_normalization_pipeline (cfg : ColumnsConfig) :
    List (List CallSpec × List String) :=
  cfg.columns.foldl
    (fun groups col => groupAppend groups (col.normalization.getD []) col.name)
    []

/-- `ColumnsConfig.get_na_values_dict`: column name to its `na_values`
(a Python dict, hence last-wins on duplicate names). -/
def ColumnsConfig.get_na_values_dict (cfg : ColumnsConfig) :
    List (String × Option (List Val)) :=
  strDictOfPairs (cfg.columns.map (fun col => (col.name, col.na_values)))

/-- `ColumnsConfig.get_columns_fill_na_dict`: column name to its
`fill_na`. -/
def ColumnsConfig.get_columns_fill_na_dict (cfg : ColumnsConfig) :
    List (String × Option Val) :=
  strDictOfPairs (cfg.columns.map (fun col => (col.name, col.fill_na)))

/-! ### The normalization engine (`tabular_data.py`) -/

/-- One table column: its pandas dtype string, its cells (`.vNA` is the
missing sentinel) and, for `category` columns, the category list. -/
structure Column where
  dtype : String
  cells : List Val
  categories : List Val
  deriving Repr, DecidableEq

/-- A pandas DataFrame restricted to what the engine observes: named
columns in order. -/
abbrev Table := List (String × Column)

def STRING_DTYPES : List String := ["string"]

def NUMERIC_DTYPES : List String := ["Int64", "Float64"]

def DATE_DTYPES : List String := ["datetime64[ns]", "datetime64[ns, UTC]"]

def CATEGORICAL_DTYPES : List String := ["category"]

def BOOLEAN_DTYPES : List String := ["boolean"]

def ALL_DTYPES : List String :=
  STRING_DTYPES ++ NUMERIC_DTYPES ++ DATE_DTYPES ++ CATEGORICAL_DTYPES ++
    BOOLEAN_DTYPES

/-- `df.loc[:, labels]` under pandas ≥ 1.0 semantics: selecting with a
label absent from the table raises `KeyError`. -/
def locSelect (t : Table) : List String → Except String Table
  | [] => .ok []
  | l :: rest =>
    match t.lookup l with
    | some col => (locSelect t rest).map ((l, col) :: ·)
    | none => .error ("KeyError: " ++ l)

/-- `TabularDataNormalizer._sort_columns_as_config`: compute the new
column order (all configured primary names, then the table columns not
known to the config — by name or alias — in their original order) and
select it with `.loc`. -/
def sortColumnsAsConfig (cfg : ColumnsConfig) (t : Table) :
    Except String Table :=
  let notInConfig := (t.map (·.1)).filter (fun c => ! cfg.hasKey c)
  let newOrder := cfg.columnNames ++ notInConfig
  locSelect t newOrder

/-- The `list`/`tuple`/`set`/`frozenset` unwrapping of `convert_to_na`:
a single non-container value is promoted to a 1-element list. -/
def naListOf : Val → List Val
  | .vlist xs => xs
  | .vtuple xs => xs
  | .vset xs => xs
  | .vfrozenset xs => xs
  | v => [v]

/-- The per-column body of `convert_to_na`: look the column up
(`KeyError` if absent), skip it when its dtype is not a normalized
dtype, mask the cells that are `isin` the na values (`==` semantics),
for categorical columns remove the na values from the category set
(which also voids cells of the removed categories), then set the masked
cells to `pd.NA`. -/
def convertColumnToNa (t : Table) (cname : String) (nas : List Val) :
    Except String Table :=
  match t.lookup cname with
  | none => .error ("KeyError: " ++ cname)
  | some col =>
    if col.dtype ∈ ALL_DTYPES then
      let mask := col.cells.map (fun v => Val.pyEqMem v nas)
      let col1 :=
        if col.dtype ∈ CATEGORICAL_DTYPES then
          let removed := nas.filter (fun v => Val.pyEqMem v col.categories)
          { col with
            categories :=
              col.categories.filter (fun c => ! Val.pyEqMem c removed)
            cells := col.cells.map
              (fun v => if Val.pyEqMem v removed then .vNA else v) }
        else col
      let newCells := (mask.zip col1.cells).map
        (fun mv => if mv.1 then Val.vNA else mv.2)
      .ok (t.map (fun e =>
        if e.1 == cname then (e.1, { col1 with cells := newCells }) else e))
    else .ok t

/-- `TabularDataNormalizer.convert_to_na`: iterate the column-to-na
mapping, skipping `None` entries. -/
def convertToNa (t : Table) :
    List (String × Option Val) → Except String Table
  | [] => .ok t
  | (cname, nas?) :: rest =>
    match nas? with
    | none => convertToNa t rest
    | some nasVal =>
      match convertColumnToNa t cname (naListOf nasVal) with
      | .error e => .error e
      | .ok t1 => convertToNa t1 rest

/-- Python `str()` of a modelled value (string fill values). -/
def pyStr (v : Val) : String :=
  match v with
  | .vstr s => s
  | .vtimestamp t => t
  | v => pyRepr v

/-- Python `float()` restricted to the values the claims exercise:
numbers convert exactly, integer-literal strings parse, anything else
is a `ValueError`.  (Python also parses fractional strings; no claim
feeds one to a numeric fill.) -/
def pyFloat (v : Val) : Except String Val :=
  match Val.numVal v with
  | some q => .ok (.vfloat q)
  | none =>
    match v with
    | .vstr s =>
      match s.toInt? with
      | some n => .ok (.vfloat n)
      | none => .error "ValueError: could not convert string to float"
    | _ => .error "TypeError: float() argument"

/-- `TabularDataNormalizer._string_fill_na`: `str()` the fill value,
fill the missing cells, then `astype("string")` every cell. -/
def stringFillNa (col : Column) (fill : Val) : Column :=
  let f := pyStr fill
  { col with
    cells := col.cells.map
      (fun v => if v = .vNA then .vstr f else .vstr (pyStr v))
    dtype := "string" }

/-- `TabularDataNormalizer._categorical_fill_na`: add the fill value as
a category when absent, then fill. -/
def categoricalFillNa (col : Column) (fill : Val) : Column :=
  let cats :=
    if Val.pyEqMem fill col.categories then col.categories
    else col.categories ++ [fill]
  { col with
    categories := cats
    cells := col.cells.map (fun v => if v = .vNA then fill else v) }

/-- The per-column body of `fill_na`: look the column up (`KeyError` if
absent), skip non-normalized dtypes with a warning, skip a `None` fill,
then dispatch on the dtype family (string, numeric via `float()`,
categorical, generic `fillna` otherwise). -/
def fillColumnNa (t : Table) (cname : String) (fill? : Option Val) :
    Except String Table :=
  match t.lookup cname with
  | none => .error ("KeyError: " ++ cname)
  | some col =>
    if col.dtype ∈ ALL_DTYPES then
      match fill? with
      | none => .ok t
      | some fill =>
        let newCol? : Except String Column :=
          if col.dtype ∈ STRING_DTYPES then
            .ok (stringFillNa col fill)
          else if col.dtype ∈ NUMERIC_DTYPES then
            match pyFloat fill with
            | .error e => .error e
            | .ok f =>
              .ok { col with
                cells := col.cells.map (fun v => if v = .vNA then f else v) }
          else if col.dtype ∈ CATEGORICAL_DTYPES then
            .ok (categoricalFillNa col fill)
          else
            .ok { col with
              cells := col.cells.map (fun v => if v = .vNA then fill else v) }
        match newCol? with
        | .error e => .error e
        | .ok newCol =>
          .ok (t.map (fun e => if e.1 == cname then (e.1, newCol) else e))
    else .ok t

/-- `TabularDataNormalizer.fill_na`: iterate the column-to-fill
mapping. -/
def fillNa (t : Table) :
    List (String × Option Val) → Except String Table
  | [] => .ok t
  | (cname, fill?) :: rest =>
    match fillColumnNa t cname fill? with
    | .error e => .error e
    | .ok t1 => fillNa t1 rest

/-- A transformation routine of the engine's dispatch table: parameters
(as a mapping), target columns, table in, table out. -/
def Routine : Type := List (Val × Val) → List String → Table → Table

/-- `TabularDataNormalizer._apply_norm_methods`: iterate the execution
plan; a method name that does not resolve is logged and its group
skipped; a resolved routine is invoked with the spec's
`params_to_dict()` plus the group's column list, and its result becomes
the new working table. -/
def applyNormMethods (routines : String → Option Routine)
    (cfg : ColumnsConfig) (t : Table) : Table :=
  (cfg.group_by_normalization).foldl
    (fun tbl g =>
      match routines g.1.method_name with
      | none => tbl
      | some f => f (CallSpec.params_to_dict g.1) g.2 tbl)
    t

/-- `TabularDataNormalizer._convert_na_values`: convert the configured
na values of every column (stored tuples are Python tuples). -/
def convertNaValues (cfg : ColumnsConfig) (t : Table) : Except String Table :=
  convertToNa t
    ((cfg.get_na_values_dict).map (fun kv => (kv.1, kv.2.map Val.vtuple)))

/-- `TabularDataNormalizer._fill_na_values`. -/
def fillNaValues (cfg : ColumnsConfig) (t : Table) : Except String Table :=
  fillNa t cfg.get_columns_fill_na_dict

/-- The phases of `_autonorm_implementation`, in the order its body
names them. -/
inductive Phase where
  | sortColumns : Phase
  | applyMethods : Phase
  | convertNA : Phase
  | fillNA : Phase
  deriving Repr, DecidableEq

/-- `TabularDataNormalizer._autonorm_implementation`: sort the columns
as configured, apply the normalization groups, convert the configured
na values, fill the missing values. -/
def autonormImplementation (routines : String → Option Routine)
    (cfg : ColumnsConfig) (t : Table) : Except String Table :=
  match sortColumnsAsConfig cfg t with
  | .error e => .error e
  | .ok t1 =>
    let t2 := applyNormMethods routines cfg t1
    match convertNaValues cfg t2 with
    | .error e => .error e
    | .ok t3 => fillNaValues cfg t3

/-- `_autonorm_implementation` instrumented with the phase labels, one
emitted by each phase as it runs (mirroring the phase-entry log
lines). -/
def autonormWithTrace (routines : String → Option Routine)
    (cfg : ColumnsConfig) (t : Table) :
    Except String (List Phase × Table) :=
  match (sortColumnsAsConfig cfg t).map (Phase.sortColumns, ·) with
  | .error e => .error e
  | .ok (p1, t1) =>
  match (Phase.applyMethods, applyNormMethods routines cfg t1) with
  | (p2, t2) =>
  match (convertNaValues cfg t2).map (Phase.convertNA, ·) with
  | .error e => .error e
  | .ok (p3, t3) =>
  match (fillNaValues cfg t3).map (Phase.fillNA, ·) with
  | .error e => .error e
  | .ok (p4, t4) => .ok ([p1, p2, p3, p4], t4)

/-- `NormalizerInterface.autonorm` over a `TabularDataNormalizer`:
running without a configuration is a fatal `ValueError` before any
phase. -/
def autonorm (routines : String → Option Routine)
    (settings : Option ColumnsConfig) (t : Table) : Except String Table :=
  match settings with
  | none => .error "ValueError: No normalization settings provided"
  | some cfg => autonormImplementation routines cfg t

/-! ### Predicates used to state the claims -/

/-- Is the value a string? -/
def isStrVal : Val → Bool
  | .vstr _ => true
  | _ => false

mutual

/-- Normalize every list to a tuple, recursively, leaving keys and all
other structure intact.  Two parameter values are "equal up to sequence
container type" (claim C3) when their `canonLT` images coincide.  Sets
and frozensets are left alone: their elements are hashable in Python,
hence never lists. -/
def canonLT : Val → Val
  | .vlist xs => .vtuple (canonLTList xs)
  | .vtuple xs => .vtuple (canonLTList xs)
  | .vdict kvs => .vdict (canonLTPairs kvs)
  | v => v

def canonLTList : List Val → List Val
  | [] => []
  | x :: xs => canonLT x :: canonLTList xs

def canonLTPairs : List (Val × Val) → List (Val × Val)
  | [] => []
  | kv :: kvs => (kv.1, canonLT kv.2) :: canonLTPairs kvs

end

/-- Is the value free of containers (so that freezing and unfreezing
leave it untouched and Python can hash it)? -/
def isScalar : Val → Bool
  | .vlist _ => false
  | .vtuple _ => false
  | .vset _ => false
  | .vfrozenset _ => false
  | .vdict _ => false
  | _ => true

/-- Does `_freeze` turn the value into a 2-tuple (so that `_unfreeze`'s
mapping detection would treat it as a key-value pair)?  This holds for
2-element lists and tuples and for 2-entry mappings. -/
def freezesToPair2 : Val → Bool
  | .vlist [_, _] => true
  | .vtuple [_, _] => true
  | .vdict [_, _] => true
  | _ => false

/-- Pairwise distinctness under Python `==` (real sets are deduplicated
by construction). -/
def pyNodup : List Val → Bool
  | [] => true
  | x :: xs => !(Val.pyEqMem x xs) && pyNodup xs

/-- All mapping keys are strings and pairwise distinct (every real
configuration mapping is string-keyed). -/
def strKeyOk (kvs : List (Val × Val)) : Bool :=
  kvs.all (fun kv => isStrVal kv.1) && decide ((kvs.map Prod.fst).Nodup)

mutual

/-- Domain on which `_unfreeze` exactly inverts `_freeze` (claim C7
amended): no tuples (Python rebuilds them as lists), no nonempty
sequence consisting solely of values that freeze to key-value-pair
shapes (it would come back as a mapping), sets and frozensets of
deduplicated scalars only (their elements must stay hashable), and
nonempty string-keyed mappings (an empty mapping comes back as an empty
list). -/
def Unfreezable : Val → Bool
  | .vlist xs => (xs.isEmpty || !xs.all freezesToPair2) && UnfreezableList xs
  | .vtuple _ => false
  | .vset xs => xs.all isScalar && pyNodup xs
  | .vfrozenset xs => xs.all isScalar && pyNodup xs
  | .vdict kvs => !kvs.isEmpty && strKeyOk kvs && UnfreezablePairs kvs
  | _ => true

def UnfreezableList : List Val → Bool
  | [] => true
  | x :: xs => Unfreezable x && UnfreezableList xs

def UnfreezablePairs : List (Val × Val) → Bool
  | [] => true
  | kv :: kvs => Unfreezable kv.2 && UnfreezablePairs kvs

end

/-- A `CallSpec` whose stored params survive serialization: string
keys, pairwise distinct, already in sorted order (as `from_map` leaves
them), and each value a fixed point of
unfreeze-then-recast-then-refreeze (scalars always are). -/
def specStable (spec : CallSpec) : Prop :=
  spec.params.all (fun kv => isStrVal kv.1) = true ∧
  (spec.params.map Prod.fst).Nodup ∧
  sortPairsByKey spec.params = spec.params ∧
  ∀ kv ∈ spec.params, freeze (castString (unfreeze kv.2)) = kv.2

/-- A pipeline whose specs have pairwise-distinct method names (the
serialized mapping is keyed by method name) and stable params. -/
def pipelineStable : Option (List CallSpec) → Prop
  | none => True
  | some l => (l.map CallSpec.method_name).Nodup ∧ ∀ spec ∈ l, specStable spec

/-- Substring test on char lists. -/
def listHasInfix (pat : List Char) : List Char → Bool
  | [] => pat.isEmpty
  | c :: tl => pat.isPrefixOf (c :: tl) || listHasInfix pat tl

/-- Modelled from the spec: "pattern values match via regex test" — the
`re.search` semantics of a metacharacter-free (literal) pattern, which
succeeds exactly when the pattern text occurs inside the probed string.
Used only to state what the spec demands of `convert_to_na`; the source
has no regex test there. -/
def specRegexMatchesLiteral (pat s : String) : Bool :=
  listHasInfix pat.data s.data

/-- Shared shape of the two grouping folds of `ColumnsConfig`: each
entry `(name, keys)` appends its name to the group of each of its keys
in order. -/
def contribFold {κ : Type} [DecidableEq κ] (entries : List (String × List κ))
    (groups : List (κ × List String)) : List (κ × List String) :=
  entries.foldl (fun gs e => e.2.foldl (fun g k => groupAppend g k e.1) gs)
    groups

/-- The member list of the group keyed `k` (empty when absent). -/
def groupOf {κ : Type} [DecidableEq κ] (groups : List (κ × List String))
    (k : κ) : List String :=
  ((groups.find? (fun g => decide (g.1 = k))).map (·.2)).getD []

/-- How often the entries contribute key `k` under name `nm`. -/
def countContrib {κ : Type} [DecidableEq κ] (entries : List (String × List κ))
    (k : κ) (nm : String) : Nat :=
  (entries.map (fun e => if e.1 = nm then e.2.count k else 0)).sum

end Verbosa

namespace Verbosa

/-! ## Theorems -/

/-! ### Claim C9: `from_map` on a non-mapping params value -/

/-- C9 counterexample: the claim says `CallSpec.from_map` fails with a
type error whenever `params` is neither `None` nor a mapping.  It does
not: for the non-mapping `5` it returns normally, a `CallSpec` with
empty params (the source logs a debug line and returns;
`column_config.py` lines 174-179). -/
theorem c9_counterexample :
    CallSpec.from_map "strip" (.vint 5) = { method_name := "strip", params := [] } :=
  rfl

/-- C9 amended: for every method name and every params value that is
neither `None` nor a mapping, `from_map` returns normally with a
`CallSpec` carrying the method name and empty params (no error is
raised). -/
theorem c9_from_map_non_mapping (m : String) (v : Val)
    (hn : v ≠ .vnone) (hd : ∀ kvs, v ≠ .vdict kvs) :
    CallSpec.from_map m v = { method_name := m, params := [] } := by
  cases v with
  | vnone => exact absurd rfl hn
  | vdict kvs => exact absurd rfl (hd kvs)
  | _ => rfl

/-- C9 witness: the amended theorem applied to the concrete non-mapping
value `5`. -/
theorem c9_witness :
    CallSpec.from_map "strip" (.vint 5) = { method_name := "strip", params := [] } :=
  c9_from_map_non_mapping "strip" (.vint 5) (by decide) (fun kvs => by intro h; cases h)

/-! ### Claim C1: phase order of `_autonorm_implementation` -/

/-- C1 amended: every completed run executes exactly the phases column
reordering, pipeline-group application, na-value conversion, missing-
value fill — in that order, each exactly once.  (The claim's order,
with a conversion pass before the pipeline groups and a second one
after, does not match the source: `_autonorm_implementation` performs a
single na conversion, after the pipeline groups.) -/
theorem c1_phase_order (routines : String → Option Routine)
    (cfg : ColumnsConfig) (t : Table) (ph : List Phase) (tbl : Table)
    (h : autonormWithTrace routines cfg t = .ok (ph, tbl)) :
    ph = [.sortColumns, .applyMethods, .convertNA, .fillNA] ∧
      autonormImplementation routines cfg t = .ok tbl := by
  unfold autonormWithTrace at h
  unfold autonormImplementation
  cases hs : sortColumnsAsConfig cfg t with
  | error e => simp only [hs, Except.map] at h; exact Except.noConfusion h
  | ok t1 =>
    simp only [hs, Except.map] at h
    cases hc : convertNaValues cfg (applyNormMethods routines cfg t1) with
    | error e => simp only [hc, Except.map] at h; exact Except.noConfusion h
    | ok t3 =>
      simp only [hc, Except.map] at h
      cases hf : fillNaValues cfg t3 with
      | error e => simp only [hf, Except.map] at h; exact Except.noConfusion h
      | ok t4 =>
        simp only [hf, Except.map, Except.ok.injEq, Prod.mk.injEq] at h
        obtain ⟨hph, htbl⟩ := h
        subst hph htbl
        simp [hc, hf]

/-- C1 witness: a complete run on a one-column configuration and a
matching table; the phase trace is reorder, apply-groups, convert-NA,
fill-NA. -/
theorem c1_witness :
    [Phase.sortColumns, Phase.applyMethods, Phase.convertNA, Phase.fillNA]
        = [Phase.sortColumns, Phase.applyMethods, Phase.convertNA, Phase.fillNA] ∧
      autonormImplementation (fun _ => none)
        { name := "cfg", description := "d", author := "a", date := "t",
          columns := [
            { name := "a", dtype := "string", description := none,
              aliases := ["a"], na_values := none, fill_na := none,
              reviews := none, normalization := none }] }
        [("a", { dtype := "string", cells := [.vstr "x"], categories := [] })]
        = .ok [("a", { dtype := "string", cells := [.vstr "x"], categories := [] })] :=
  c1_phase_order (fun _ => none)
    { name := "cfg", description := "d", author := "a", date := "t",
      columns := [
        { name := "a", dtype := "string", description := none,
          aliases := ["a"], na_values := none, fill_na := none,
          reviews := none, normalization := none }] }
    [("a", { dtype := "string", cells := [.vstr "x"], categories := [] })]
    [Phase.sortColumns, Phase.applyMethods, Phase.convertNA, Phase.fillNA]
    [("a", { dtype := "string", cells := [.vstr "x"], categories := [] })]
    (by rfl)

/-- C1 counterexample: the claim asserts the phase order reorder,
convert-NA, apply-groups, convert-NA, fill-NA (two conversion passes,
the first before the pipeline groups).  On a concrete run the engine's
trace is reorder, apply-groups, convert-NA, fill-NA — a single
conversion pass, after the pipeline groups — which differs from the
claimed sequence. -/
theorem c1_counterexample :
    autonormWithTrace (fun _ => none)
        { name := "cfg", description := "d", author := "a", date := "t",
          columns := [
            { name := "a", dtype := "string", description := none,
              aliases := ["a"], na_values := none, fill_na := none,
              reviews := none, normalization := none }] }
        [("a", { dtype := "string", cells := [.vstr "x"], categories := [] })]
      = .ok ([Phase.sortColumns, Phase.applyMethods, Phase.convertNA, Phase.fillNA],
          [("a", { dtype := "string", cells := [.vstr "x"], categories := [] })]) ∧
    [Phase.sortColumns, Phase.applyMethods, Phase.convertNA, Phase.fillNA] ≠
      [Phase.sortColumns, Phase.convertNA, Phase.applyMethods, Phase.convertNA,
        Phase.fillNA] :=
  ⟨by rfl, by decide⟩

/-! ### Claim C8: missing configured columns in `_sort_columns_as_config` -/

/-- C8: the claim (and the docstring of `_autonorm_implementation`)
says a column declared in the configuration but absent from the table
is skipped with a warning and the run continues.  The code instead
always places every configured primary name into `new_order` and
selects it with `df.loc[:, new_order]`, which raises `KeyError` for a
missing label (pandas ≥ 1.0): with columns `a`, `b` configured and only
`a` present, column sorting fails instead of skipping `b`. -/
theorem c8_failing :
    (sortColumnsAsConfig
      { name := "cfg", description := "d", author := "a", date := "t",
        columns := [
          { name := "a", dtype := "string", description := none,
            aliases := ["a"], na_values := none, fill_na := none,
            reviews := none, normalization := none },
          { name := "b", dtype := "string", description := none,
            aliases := ["b"], na_values := none, fill_na := none,
            reviews := none, normalization := none }] }
      [("a", { dtype := "string", cells := [.vstr "x"], categories := [] })]).toOption
      = none :=
  rfl

/-- Keys of a successful `.loc` selection are exactly the requested
labels. -/
theorem locSelect_ok (t : Table) :
    ∀ labels : List String, (∀ l ∈ labels, (t.lookup l).isSome) →
      ∃ t', locSelect t labels = .ok t' ∧ t'.map (·.1) = labels := by
  intro labels
  induction labels with
  | nil => exact fun _ => ⟨[], rfl, rfl⟩
  | cons l rest ih =>
    intro hall
    have hl := hall l (by simp)
    cases hcol : t.lookup l with
    | none => rw [hcol] at hl; simp at hl
    | some col =>
      obtain ⟨t', ht', hkeys⟩ := ih (fun x hx => hall x (by simp [hx]))
      refine ⟨(l, col) :: t', ?_, by simp [hkeys]⟩
      simp [locSelect, hcol, ht', Except.map]

/-- A key occurring in a table has a successful lookup. -/
theorem lookup_isSome_of_mem_keys (t : Table) (nm : String)
    (h : nm ∈ t.map (·.1)) : (t.lookup nm).isSome := by
  induction t with
  | nil => simp at h
  | cons e rest ih =>
    by_cases he : nm = e.1
    · simp [List.lookup, he]
    · simp only [List.map_cons, List.mem_cons] at h
      rcases h with h | h
      · exact absurd h he
      · simp only [List.lookup]
        rw [show (nm == e.1) = false from beq_eq_false_iff_ne.2 he]
        exact ih h

/-- C8, true half: when every configured primary name is present in
the table, column sorting succeeds and the result's columns are the
configured names followed by the table's unconfigured columns in their
original relative order. -/
theorem c8_present_columns_order (cfg : ColumnsConfig) (t : Table)
    (hall : ∀ nm ∈ cfg.columnNames, (t.lookup nm).isSome) :
    ∃ t', sortColumnsAsConfig cfg t = .ok t' ∧
      t'.map (·.1) =
        cfg.columnNames ++ (t.map (·.1)).filter (fun c => ! cfg.hasKey c) := by
  apply locSelect_ok
  intro l hl
  rcases List.mem_append.1 hl with h | h
  · exact hall l h
  · exact lookup_isSome_of_mem_keys t l (List.mem_of_mem_filter h)

/-- C8 second theorem's witness: a table with an unconfigured column
`b` ahead of the configured `a` is reordered to `a`, `b`. -/
theorem c8_present_columns_order_witness :
    ∃ t', sortColumnsAsConfig
        { name := "cfg", description := "d", author := "a", date := "t",
          columns := [
            { name := "a", dtype := "string", description := none,
              aliases := ["a"], na_values := none, fill_na := none,
              reviews := none, normalization := none }] }
        [("b", { dtype := "string", cells := [], categories := [] }),
         ("a", { dtype := "string", cells := [], categories := [] })] = .ok t' ∧
      t'.map (·.1) = ["a"] ++ ["b"] := by
  have h := c8_present_columns_order
    { name := "cfg", description := "d", author := "a", date := "t",
      columns := [
        { name := "a", dtype := "string", description := none,
          aliases := ["a"], na_values := none, fill_na := none,
          reviews := none, normalization := none }] }
    [("b", { dtype := "string", cells := [], categories := [] }),
     ("a", { dtype := "string", cells := [], categories := [] })]
    (by decide)
  exact h

/-! ### Claim C3: canonical parameter encoding of `from_map` -/

theorem freezeList_eq_map : ∀ xs : List Val, freezeList xs = xs.map freeze := by
  intro xs; induction xs with
  | nil => rfl
  | cons x xs ih => simp [freezeList, ih]

theorem freezePairs_eq_map : ∀ kvs : List (Val × Val),
    freezePairs kvs = kvs.map (fun kv => (kv.1, freeze kv.2)) := by
  intro kvs; induction kvs with
  | nil => rfl
  | cons kv kvs ih => simp [freezePairs, ih]

theorem canonLTList_eq_map : ∀ xs : List Val, canonLTList xs = xs.map canonLT := by
  intro xs; induction xs with
  | nil => rfl
  | cons x xs ih => simp [canonLTList, ih]

theorem canonLTPairs_eq_map : ∀ kvs : List (Val × Val),
    canonLTPairs kvs = kvs.map (fun kv => (kv.1, canonLT kv.2)) := by
  intro kvs; induction kvs with
  | nil => rfl
  | cons kv kvs ih => simp [canonLTPairs, ih]

/-- `_freeze` does not distinguish lists from tuples, recursively. -/
theorem freeze_canonLT : ∀ v : Val, freeze (canonLT v) = freeze v := by
  intro v
  induction v using Val.inductionOn with
  | hnone => rfl
  | hNA => rfl
  | hbool b => rfl
  | hint n => rfl
  | hfloat q => rfl
  | hstr s => rfl
  | hpattern s => rfl
  | htimestamp s => rfl
  | hlist xs ih =>
    show freeze (.vtuple (canonLTList xs)) = freeze (.vlist xs)
    simp only [freeze, freezeList_eq_map, canonLTList_eq_map, List.map_map]
    exact congrArg _ (List.map_congr_left (fun x hx => ih x hx))
  | htuple xs ih =>
    show freeze (.vtuple (canonLTList xs)) = freeze (.vtuple xs)
    simp only [freeze, freezeList_eq_map, canonLTList_eq_map, List.map_map]
    exact congrArg _ (List.map_congr_left (fun x hx => ih x hx))
  | hset xs ih => rfl
  | hfrozenset xs ih => rfl
  | hdict kvs ih =>
    show freeze (.vdict (canonLTPairs kvs)) = freeze (.vdict kvs)
    simp only [freeze, freezePairs_eq_map, canonLTPairs_eq_map, List.map_map]
    have : kvs.map ((fun kv => (kv.1, freeze kv.2)) ∘
        (fun kv => (kv.1, canonLT kv.2))) = kvs.map (fun kv => (kv.1, freeze kv.2)) :=
      List.map_congr_left (fun kv hkv => by
        simp only [Function.comp]
        exact congrArg (Prod.mk kv.1) ((ih kv hkv).2))
    rw [this]

/-- `_cast_string` then `_freeze` does not distinguish lists from
tuples either (the caster only looks at strings, which `canonLT` leaves
alone). -/
theorem freeze_cast_canonLT (v : Val) :
    freeze (castString (canonLT v)) = freeze (castString v) := by
  cases v with
  | vstr s => rfl
  | vlist xs =>
    show freeze (castString (.vtuple (canonLTList xs))) = _
    rw [show castString (Val.vtuple (canonLTList xs)) = .vtuple (canonLTList xs) from rfl,
      show castString (Val.vlist xs) = .vlist xs from rfl]
    exact freeze_canonLT (.vlist xs)
  | vtuple xs =>
    show freeze (castString (.vtuple (canonLTList xs))) = _
    rw [show castString (Val.vtuple (canonLTList xs)) = .vtuple (canonLTList xs) from rfl,
      show castString (Val.vtuple xs) = .vtuple xs from rfl]
    exact freeze_canonLT (.vtuple xs)
  | vdict kvs =>
    show freeze (castString (.vdict (canonLTPairs kvs))) = _
    rw [show castString (Val.vdict (canonLTPairs kvs)) = .vdict (canonLTPairs kvs) from rfl,
      show castString (Val.vdict kvs) = .vdict kvs from rfl]
    exact freeze_canonLT (.vdict kvs)
  | _ => rfl

/-- The key order in terms of the measure. -/
theorem keyLE_iff (a b : Val) :
    Val.keyLE a b = true ↔
      ((Val.keyMeasure a).1 < (Val.keyMeasure b).1 ∨
        ((Val.keyMeasure a).1 = (Val.keyMeasure b).1 ∧
          ((Val.keyMeasure a).2.1 < (Val.keyMeasure b).2.1 ∨
            ((Val.keyMeasure a).2.1 = (Val.keyMeasure b).2.1 ∧
              (Val.keyMeasure a).2.2 ≤ (Val.keyMeasure b).2.2)))) := by
  simp [Val.keyLE, Bool.or_eq_true, Bool.and_eq_true, decide_eq_true_eq,
    beq_iff_eq]

/-- Totality of the key order. -/
theorem keyLE_total : ∀ a b : Val, Val.keyLE a b = true ∨ Val.keyLE b a = true := by
  intro a b
  rw [keyLE_iff, keyLE_iff]
  rcases lt_trichotomy (Val.keyMeasure a).1 (Val.keyMeasure b).1 with h | h | h
  · exact Or.inl (Or.inl h)
  · rcases lt_trichotomy (Val.keyMeasure a).2.1 (Val.keyMeasure b).2.1 with h2 | h2 | h2
    · exact Or.inl (Or.inr ⟨h, Or.inl h2⟩)
    · rcases le_total (Val.keyMeasure a).2.2 (Val.keyMeasure b).2.2 with h3 | h3
      · exact Or.inl (Or.inr ⟨h, Or.inr ⟨h2, h3⟩⟩)
      · exact Or.inr (Or.inr ⟨h.symm, Or.inr ⟨h2.symm, h3⟩⟩)
    · exact Or.inr (Or.inr ⟨h.symm, Or.inl h2⟩)
  · exact Or.inr (Or.inl h)

/-- Transitivity of the key order. -/
theorem keyLE_trans : ∀ a b c : Val, Val.keyLE a b = true →
    Val.keyLE b c = true → Val.keyLE a c = true := by
  intro a b c hab hbc
  rw [keyLE_iff] at hab hbc ⊢
  rcases hab with h | ⟨he, hab⟩
  · rcases hbc with h' | ⟨he', _⟩
    · exact Or.inl (h.trans h')
    · exact Or.inl (he' ▸ h)
  · rcases hbc with h' | ⟨he', hbc⟩
    · exact Or.inl (he ▸ h')
    · refine Or.inr ⟨he.trans he', ?_⟩
      rcases hab with h2 | ⟨he2, hab⟩
      · rcases hbc with h2' | ⟨he2', _⟩
        · exact Or.inl (h2.trans h2')
        · exact Or.inl (he2' ▸ h2)
      · rcases hbc with h2' | ⟨he2', hbc⟩
        · exact Or.inl (he2 ▸ h2')
        · exact Or.inr ⟨he2.trans he2', hab.trans hbc⟩

/-- The key order is antisymmetric on distinct string keys. -/
theorem keyLE_antisymm_str {x y : String}
    (h1 : Val.keyLE (.vstr x) (.vstr y) = true)
    (h2 : Val.keyLE (.vstr y) (.vstr x) = true) : x = y := by
  rw [keyLE_iff] at h1 h2
  simp only [Val.keyMeasure] at h1 h2
  have hx : x ≤ y := by
    rcases h1 with h | ⟨-, h | ⟨-, h⟩⟩
    · exact absurd h (by norm_num)
    · exact absurd h (by norm_num)
    · exact h
  have hy : y ≤ x := by
    rcases h2 with h | ⟨-, h | ⟨-, h⟩⟩
    · exact absurd h (by norm_num)
    · exact absurd h (by norm_num)
    · exact h
  exact le_antisymm hx hy

/-- Two permuted lists, both pairwise-ordered by a relation that is
asymmetric on their elements, are equal. -/
theorem perm_pairwise_asymm_eq {α : Type} {r : α → α → Prop} :
    ∀ {l₁ l₂ : List α}, l₁.Perm l₂ →
      (∀ a ∈ l₁, ∀ b ∈ l₁, r a b → r b a → False) →
      l₁.Pairwise r → l₂.Pairwise r → l₁ = l₂ := by
  intro l₁
  induction l₁ with
  | nil => intro l₂ hperm _ _ _; exact (hperm.nil_eq).symm ▸ rfl
  | cons a t₁ ih =>
    intro l₂ hperm hasym hp₁ hp₂
    cases l₂ with
    | nil => exact absurd hperm.symm (by simp)
    | cons b t₂ =>
      have hab : a = b := by
        by_contra hne
        have hbmem : b ∈ a :: t₁ := hperm.symm.subset (by simp)
        have hamem : a ∈ b :: t₂ := hperm.subset (by simp)
        have hb₁ : b ∈ t₁ := by
          rcases List.mem_cons.1 hbmem with h | h
          · exact absurd h.symm hne
          · exact h
        have ha₂ : a ∈ t₂ := by
          rcases List.mem_cons.1 hamem with h | h
          · exact absurd h hne
          · exact h
        have hrab : r a b := (List.pairwise_cons.1 hp₁).1 b hb₁
        have hrba : r b a := (List.pairwise_cons.1 hp₂).1 a ha₂
        exact hasym a (by simp) b (by simp [hb₁]) hrab hrba
      subst hab
      have htperm : t₁.Perm t₂ := hperm.cons_inv
      have := ih htperm
        (fun x hx y hy => hasym x (by simp [hx]) y (by simp [hy]))
        (List.pairwise_cons.1 hp₁).2 (List.pairwise_cons.1 hp₂).2
      rw [this]

/-- Sorting by key is permutation-invariant on string-keyed mappings
with pairwise-distinct keys. -/
theorem sortPairsByKey_eq_of_perm (l₁ l₂ : List (Val × Val))
    (hstr : ∀ kv ∈ l₁, isStrVal kv.1 = true)
    (hnd : (l₁.map Prod.fst).Nodup)
    (hperm : l₁.Perm l₂) :
    sortPairsByKey l₁ = sortPairsByKey l₂ := by
  haveI htot : IsTotal (Val × Val) (fun p q => Val.keyLE p.1 q.1 = true) :=
    ⟨fun p q => keyLE_total p.1 q.1⟩
  haveI htr : IsTrans (Val × Val) (fun p q => Val.keyLE p.1 q.1 = true) :=
    ⟨fun p q w => keyLE_trans p.1 q.1 w.1⟩
  have hs₁ := List.sorted_insertionSort (fun p q : Val × Val => Val.keyLE p.1 q.1 = true) l₁
  have hs₂ := List.sorted_insertionSort (fun p q : Val × Val => Val.keyLE p.1 q.1 = true) l₂
  have hperm₁ := List.perm_insertionSort (fun p q : Val × Val => Val.keyLE p.1 q.1 = true) l₁
  have hperm₂ := List.perm_insertionSort (fun p q : Val × Val => Val.keyLE p.1 q.1 = true) l₂
  set r := fun p q : Val × Val => Val.keyLE p.1 q.1 = true ∧ p.1 ≠ q.1 with hr
  have hkeys : ∀ kv ∈ sortPairsByKey l₁, isStrVal kv.1 = true :=
    fun kv hkv => hstr kv (hperm₁.subset hkv)
  have hndkeys : ((sortPairsByKey l₁).map Prod.fst).Nodup :=
    ((hperm₁.map Prod.fst).nodup_iff).2 hnd
  have hpair₁ : (sortPairsByKey l₁).Pairwise r := by
    refine List.Pairwise.and hs₁ ?_
    have := (List.pairwise_map (f := (Prod.fst : Val × Val → Val))).1 hndkeys
    exact this
  have hndkeys₂ : ((sortPairsByKey l₂).map Prod.fst).Nodup := by
    refine ((hperm₂.map Prod.fst).nodup_iff).2 ?_
    exact ((hperm.map Prod.fst).nodup_iff).1 hnd
  have hpair₂ : (sortPairsByKey l₂).Pairwise r := by
    refine List.Pairwise.and hs₂ ?_
    exact (List.pairwise_map (f := (Prod.fst : Val × Val → Val))).1 hndkeys₂
  have hperm' : (sortPairsByKey l₁).Perm (sortPairsByKey l₂) :=
    (hperm₁.trans hperm).trans hperm₂.symm
  refine perm_pairwise_asymm_eq hperm' ?_ hpair₁ hpair₂
  intro p hp q hq hpq hqp
  obtain ⟨h1, hne1⟩ := hpq
  obtain ⟨h2, _⟩ := hqp
  have hps := hkeys p hp
  have hqs := hkeys q hq
  cases p with | mk pk pv =>
  cases q with | mk qk qv =>
  cases pk <;> simp [isStrVal] at hps
  cases qk <;> simp [isStrVal] at hqs
  exact hne1 (congrArg Val.vstr (keyLE_antisymm_str h1 h2))

/-- C3 amended: `from_map` yields equal specs (and equal hashes) for
parameter mappings that are equal as mappings regardless of key order
and of list-versus-tuple container type of their (arbitrarily nested)
values.  Set-typed values are excluded: `_freeze` maps a set to a
`frozenset` and a list/tuple to a tuple, which are unequal (see the
counterexample). -/
theorem c3_canonical_params (m : String) (kvs₁ kvs₂ : List (Val × Val))
    (hstr : ∀ kv ∈ kvs₁, isStrVal kv.1 = true)
    (hnd : (kvs₁.map Prod.fst).Nodup)
    (hperm : (kvs₁.map (fun kv => (kv.1, canonLT kv.2))).Perm
        (kvs₂.map (fun kv => (kv.1, canonLT kv.2)))) :
    CallSpec.from_map m (.vdict kvs₁) = CallSpec.from_map m (.vdict kvs₂) ∧
      (CallSpec.from_map m (.vdict kvs₁)).to_hash =
        (CallSpec.from_map m (.vdict kvs₂)).to_hash := by
  have key : ∀ kvs : List (Val × Val),
      kvs.map (fun kv => (kv.1, freeze (castString kv.2))) =
        (kvs.map (fun kv => (kv.1, canonLT kv.2))).map
          (fun kv => (kv.1, freeze (castString kv.2))) := by
    intro kvs
    rw [List.map_map]
    exact List.map_congr_left (fun kv _ => by
      simp only [Function.comp]
      exact congrArg _ (freeze_cast_canonLT kv.2).symm)
  have hperm' : (kvs₁.map (fun kv => (kv.1, freeze (castString kv.2)))).Perm
      (kvs₂.map (fun kv => (kv.1, freeze (castString kv.2)))) := by
    rw [key kvs₁, key kvs₂]
    exact hperm.map _
  have hstr' : ∀ kv ∈ kvs₁.map (fun kv => (kv.1, freeze (castString kv.2))),
      isStrVal kv.1 = true := by
    intro kv hkv
    obtain ⟨kv₀, hkv₀, rfl⟩ := List.mem_map.1 hkv
    exact hstr kv₀ hkv₀
  have hnd' : ((kvs₁.map (fun kv => (kv.1, freeze (castString kv.2)))).map
      Prod.fst).Nodup := by
    rw [List.map_map]
    exact hnd
  have heq : CallSpec.from_map m (.vdict kvs₁) = CallSpec.from_map m (.vdict kvs₂) := by
    show (⟨m, sortPairsByKey _⟩ : CallSpec) = ⟨m, sortPairsByKey _⟩
    exact congrArg _ (sortPairsByKey_eq_of_perm _ _ hstr' hnd' hperm')
  exact ⟨heq, congrArg CallSpec.to_hash heq⟩

/-- C3 witness: the mappings `{"b": 1, "a": [2]}` and
`{"a": (2,), "b": 1}` — different key order, list versus tuple —
produce the same spec and hash. -/
theorem c3_witness :
    CallSpec.from_map "m" (.vdict [(.vstr "b", .vint 1), (.vstr "a", .vlist [.vint 2])])
        = CallSpec.from_map "m"
          (.vdict [(.vstr "a", .vtuple [.vint 2]), (.vstr "b", .vint 1)]) ∧
      (CallSpec.from_map "m"
          (.vdict [(.vstr "b", .vint 1), (.vstr "a", .vlist [.vint 2])])).to_hash =
        (CallSpec.from_map "m"
          (.vdict [(.vstr "a", .vtuple [.vint 2]), (.vstr "b", .vint 1)])).to_hash :=
  c3_canonical_params "m"
    [(.vstr "b", .vint 1), (.vstr "a", .vlist [.vint 2])]
    [(.vstr "a", .vtuple [.vint 2]), (.vstr "b", .vint 1)]
    (by decide) (by decide) (by decide)

/-- C3 counterexample: the claim also asserts hash/equality invariance
for a set versus a list with equal elements.  It fails: `{"k": [1]}`
and `{"k": {1}}` freeze to a tuple and a frozenset respectively, and
the resulting specs differ. -/
theorem c3_counterexample :
    CallSpec.from_map "m" (.vdict [(.vstr "k", .vlist [.vint 1])]) ≠
      CallSpec.from_map "m" (.vdict [(.vstr "k", .vset [.vint 1])]) := by
  decide

/-! ### Claims C4 and C10: the grouping folds -/

section Grouping

variable {κ : Type} [DecidableEq κ]

/-- The `any` test of `groupAppend` is key membership. -/
theorem groupAppend_any_iff (groups : List (κ × List String)) (key : κ) :
    (groups.any (fun g => decide (g.1 = key)) = true) ↔
      key ∈ groups.map Prod.fst := by
  rw [List.any_eq_true]
  constructor
  · rintro ⟨g, hg, hdec⟩
    exact List.mem_map.2 ⟨g, hg, by simpa using hdec⟩
  · intro h
    obtain ⟨g, hg, rfl⟩ := List.mem_map.1 h
    exact ⟨g, hg, by simp⟩

/-- Keys after one `groupAppend`. -/
theorem keys_groupAppend (groups : List (κ × List String)) (key : κ)
    (nm : String) :
    (groupAppend groups key nm).map Prod.fst =
      if key ∈ groups.map Prod.fst then groups.map Prod.fst
      else groups.map Prod.fst ++ [key] := by
  unfold groupAppend
  by_cases h : key ∈ groups.map Prod.fst
  · rw [if_pos ((groupAppend_any_iff groups key).2 h), if_pos h, List.map_map]
    refine List.map_congr_left (fun g _ => ?_)
    by_cases hg : g.1 = key <;> simp [hg]
  · rw [if_neg (fun hc => h ((groupAppend_any_iff groups key).1 hc)), if_neg h]
    simp

/-- `groupAppend` preserves key distinctness. -/
theorem keys_nodup_groupAppend (groups : List (κ × List String)) (key : κ)
    (nm : String) (hnd : (groups.map Prod.fst).Nodup) :
    ((groupAppend groups key nm).map Prod.fst).Nodup := by
  rw [keys_groupAppend]
  by_cases h : key ∈ groups.map Prod.fst
  · rwa [if_pos h]
  · rw [if_neg h]
    refine List.Nodup.append hnd (List.nodup_singleton key) ?_
    intro x hx hx'
    rw [List.mem_singleton] at hx'
    subst hx'
    exact h hx

/-- `find?` commutes with the value-update map of `groupAppend`. -/
theorem find?_update (groups : List (κ × List String)) (key : κ) (nm : String)
    (k : κ) :
    (groups.map (fun g => if g.1 = key then (g.1, g.2 ++ [nm]) else g)).find?
        (fun g => decide (g.1 = k)) =
      (groups.find? (fun g => decide (g.1 = k))).map
        (fun g => if g.1 = key then (g.1, g.2 ++ [nm]) else g) := by
  induction groups with
  | nil => rfl
  | cons g rest ih =>
    obtain ⟨gk, gv⟩ := g
    by_cases hg : gk = k
    · subst hg
      by_cases hk : gk = key
      · subst hk
        simp
      · simp [hk]
    · by_cases hk : gk = key
      · subst hk
        simp only [List.map_cons, if_pos rfl]
        rw [List.find?_cons_of_neg _ (by simp [hg]),
          List.find?_cons_of_neg _ (by simp [hg])]
        exact ih
      · simp only [List.map_cons, if_neg hk]
        rw [List.find?_cons_of_neg _ (by simp [hg]),
          List.find?_cons_of_neg _ (by simp [hg])]
        exact ih

/-- The group of key `k` after one `groupAppend`. -/
theorem groupOf_groupAppend (groups : List (κ × List String)) (key : κ)
    (nm : String) (k : κ) :
    groupOf (groupAppend groups key nm) k =
      if k = key then groupOf groups key ++ [nm] else groupOf groups k := by
  unfold groupAppend groupOf
  by_cases h : key ∈ groups.map Prod.fst
  · rw [if_pos ((groupAppend_any_iff groups key).2 h), find?_update]
    by_cases hk : k = key
    · subst hk
      obtain ⟨g, hg, hg1⟩ := List.mem_map.1 h
      cases hfind : groups.find? (fun g => decide (g.1 = k)) with
      | none =>
        exfalso
        have : (groups.find? (fun g => decide (g.1 = k))).isSome :=
          List.find?_isSome.2 ⟨g, hg, by simp [hg1]⟩
        rw [hfind] at this; simp at this
      | some g0 =>
        have hg0 : g0.1 = k := by simpa using List.find?_some hfind
        simp [hg0, if_pos rfl]
    · rw [if_neg hk]
      cases hfind : groups.find? (fun g => decide (g.1 = k)) with
      | none => simp
      | some g0 =>
        have hg0 : g0.1 = k := by simpa using List.find?_some hfind
        have hne : g0.1 ≠ key := by rw [hg0]; exact hk
        simp [hne]
  · rw [if_neg (fun hc => h ((groupAppend_any_iff groups key).1 hc)),
      List.find?_append]
    by_cases hk : k = key
    · subst hk
      have hnone : groups.find? (fun g => decide (g.1 = k)) = none := by
        rw [List.find?_eq_none]
        intro g hg hdec
        exact h (List.mem_map.2 ⟨g, hg, by simpa using hdec⟩)
      simp [hnone, List.find?]
    · cases hfind : groups.find? (fun g => decide (g.1 = k)) with
      | none => simp [List.find?, hk, Ne.symm hk]
      | some g0 => simp [hk]

/-- Keys of the fold of one entry's key list. -/
theorem keys_keysFold_mem (nm : String) (ks : List κ) :
    ∀ (groups : List (κ × List String)) (k : κ),
      k ∈ ((ks.foldl (fun g k' => groupAppend g k' nm) groups).map Prod.fst) ↔
        k ∈ groups.map Prod.fst ∨ k ∈ ks := by
  induction ks with
  | nil => intro groups k; simp
  | cons k0 ks ih =>
    intro groups k
    rw [List.foldl_cons, ih]
    rw [keys_groupAppend]
    by_cases h : k0 ∈ groups.map Prod.fst
    · rw [if_pos h]
      constructor
      · rintro (hk | hk)
        · exact Or.inl hk
        · exact Or.inr (by simp [hk])
      · rintro (hk | hk)
        · exact Or.inl hk
        · rcases List.mem_cons.1 hk with rfl | hk
          · exact Or.inl h
          · exact Or.inr hk
    · rw [if_neg h]
      constructor
      · rintro (hk | hk)
        · rcases List.mem_append.1 hk with hk | hk
          · exact Or.inl hk
          · exact Or.inr (by simp [List.mem_singleton.1 hk])
        · exact Or.inr (by simp [hk])
      · rintro (hk | hk)
        · exact Or.inl (List.mem_append.2 (Or.inl hk))
        · rcases List.mem_cons.1 hk with rfl | hk
          · exact Or.inl (List.mem_append.2 (Or.inr (by simp)))
          · exact Or.inr hk

/-- Key distinctness is preserved by the fold of one entry. -/
theorem keys_keysFold_nodup (nm : String) (ks : List κ) :
    ∀ (groups : List (κ × List String)),
      (groups.map Prod.fst).Nodup →
      ((ks.foldl (fun g k' => groupAppend g k' nm) groups).map Prod.fst).Nodup := by
  induction ks with
  | nil => intro groups h; exact h
  | cons k0 ks ih =>
    intro groups h
    exact ih _ (keys_nodup_groupAppend groups k0 nm h)

/-- Member count in the group of `k` after folding one entry. -/
theorem groupOf_keysFold_count (nm : String) (ks : List κ) :
    ∀ (groups : List (κ × List String)) (k : κ) (x : String),
      ((groupOf (ks.foldl (fun g k' => groupAppend g k' nm) groups) k).count x) =
        (groupOf groups k).count x + (if nm = x then ks.count k else 0) := by
  induction ks with
  | nil => intro groups k x; simp
  | cons k0 ks ih =>
    intro groups k x
    rw [List.foldl_cons, ih, groupOf_groupAppend]
    by_cases hk : k = k0
    · subst hk
      rw [if_pos rfl, List.count_append]
      by_cases hx : nm = x
      · subst hx
        have h2 : List.count nm [nm] = 1 := by simp
        have h3 : List.count k (k :: ks) = ks.count k + 1 := by
          simp [List.count_cons]
        rw [h2, if_pos rfl, if_pos rfl, h3]
        omega
      · have h1 : (List.count x [nm]) = 0 := by
          rw [List.count_eq_zero]
          intro hc
          rw [List.mem_singleton] at hc
          exact hx hc.symm
        rw [h1, if_neg hx, if_neg hx]
    · rw [if_neg hk]
      by_cases hx : nm = x
      · subst hx
        have h3 : List.count k (k0 :: ks) = ks.count k := by
          rw [List.count_cons]
          simp [Ne.symm hk]
        rw [if_pos rfl, if_pos rfl, h3]
      · rw [if_neg hx, if_neg hx]

/-- Keys of the full contribution fold. -/
theorem keys_contribFold_mem (entries : List (String × List κ)) :
    ∀ (groups : List (κ × List String)) (k : κ),
      k ∈ ((contribFold entries groups).map Prod.fst) ↔
        k ∈ groups.map Prod.fst ∨ ∃ e ∈ entries, k ∈ e.2 := by
  induction entries with
  | nil => intro groups k; simp [contribFold]
  | cons e rest ih =>
    intro groups k
    show k ∈ ((contribFold rest _).map Prod.fst) ↔ _
    rw [ih, keys_keysFold_mem]
    constructor
    · rintro ((h | h) | h)
      · exact Or.inl h
      · exact Or.inr ⟨e, by simp, h⟩
      · obtain ⟨e', he', hk⟩ := h
        exact Or.inr ⟨e', by simp [he'], hk⟩
    · rintro (h | ⟨e', he', hk⟩)
      · exact Or.inl (Or.inl h)
      · rcases List.mem_cons.1 he' with rfl | he'
        · exact Or.inl (Or.inr hk)
        · exact Or.inr ⟨e', he', hk⟩

/-- Key distinctness of the full contribution fold. -/
theorem keys_contribFold_nodup (entries : List (String × List κ)) :
    ∀ (groups : List (κ × List String)),
      (groups.map Prod.fst).Nodup →
      ((contribFold entries groups).map Prod.fst).Nodup := by
  induction entries with
  | nil => intro groups h; exact h
  | cons e rest ih =>
    intro groups h
    exact ih _ (keys_keysFold_nodup e.1 e.2 groups h)

theorem countContrib_cons (e : String × List κ) (rest : List (String × List κ))
    (k : κ) (x : String) :
    countContrib (e :: rest) k x =
      (if e.1 = x then e.2.count k else 0) + countContrib rest k x := by
  unfold countContrib
  rw [List.map_cons, List.sum_cons]

/-- Member count in the group of `k` after the full fold. -/
theorem groupOf_contribFold_count (entries : List (String × List κ)) :
    ∀ (groups : List (κ × List String)) (k : κ) (x : String),
      ((groupOf (contribFold entries groups) k).count x) =
        (groupOf groups k).count x + countContrib entries k x := by
  induction entries with
  | nil => intro groups k x; simp [contribFold, countContrib]
  | cons e rest ih =>
    intro groups k x
    show ((groupOf (contribFold rest _) k).count x) = _
    rw [ih, groupOf_keysFold_count, countContrib_cons]
    omega

/-- In a group list with distinct keys, `find?` of a member's key
returns that member. -/
theorem find?_mem_nodup_keys (groups : List (κ × List String))
    (g : κ × List String) (hnd : (groups.map Prod.fst).Nodup)
    (hg : g ∈ groups) :
    groups.find? (fun h => decide (h.1 = g.1)) = some g := by
  induction groups with
  | nil => simp at hg
  | cons h0 rest ih =>
    rcases List.mem_cons.1 hg with rfl | hg'
    · exact List.find?_cons_of_pos _ (by simp)
    · have hne : ¬(h0.1 = g.1) := by
        intro hc
        have : g.1 ∈ rest.map Prod.fst := List.mem_map.2 ⟨g, hg', rfl⟩
        rw [← hc] at this
        exact (List.nodup_cons.1 hnd).1 this
      rw [List.find?_cons_of_neg _ (by simp [hne])]
      exact ih (List.nodup_cons.1 hnd).2 hg'

/-- A nodup key list covering `l` selects exactly `l`'s distinct
elements. -/
theorem countP_mem_eq_dedup_length (keys : List κ) (l : List κ)
    (hnd : keys.Nodup) (hsub : ∀ k ∈ l, k ∈ keys) :
    keys.countP (fun k => decide (k ∈ l)) = l.dedup.length := by
  rw [List.countP_eq_length_filter]
  have hperm : (keys.filter (fun k => decide (k ∈ l))).Perm l.dedup := by
    rw [List.perm_ext_iff_of_nodup (hnd.filter _) (List.nodup_dedup l)]
    intro k
    rw [List.mem_filter, List.mem_dedup]
    constructor
    · rintro ⟨_, hk⟩; exact of_decide_eq_true hk
    · intro hk; exact ⟨hsub k hk, decide_eq_true hk⟩
  exact hperm.length_eq

/-- With pairwise-distinct entry names, only `c`'s entry contributes to
`c`'s name. -/
theorem countContrib_of_not_mem (entries : List (String × List κ)) (k : κ)
    (nm : String) (h : nm ∉ entries.map Prod.fst) :
    countContrib entries k nm = 0 := by
  induction entries with
  | nil => rfl
  | cons e rest ih =>
    unfold countContrib
    rw [List.map_cons, List.sum_cons]
    have hne : ¬(e.1 = nm) := fun hc => h (by simp [hc])
    rw [if_neg hne]
    have := ih (fun hc => h (by simp [hc]))
    unfold countContrib at this
    omega

/-- With pairwise-distinct column names, only `c`'s entry contributes
to `c.name`. -/
theorem countContrib_name {κ : Type} [DecidableEq κ] (f : ColumnConfig → List κ) :
    ∀ (cols : List ColumnConfig) (c : ColumnConfig),
      (cols.map (·.name)).Nodup → c ∈ cols →
      ∀ k, countContrib (cols.map (fun col => (col.name, f col))) k c.name =
        (f c).count k := by
  intro cols
  induction cols with
  | nil => intro c _ hc; simp at hc
  | cons col rest ih =>
    intro c hnd hc k
    rw [List.map_cons, List.nodup_cons] at hnd
    rw [List.map_cons, countContrib_cons]
    rcases List.mem_cons.1 hc with rfl | hc'
    · rw [if_pos rfl]
      have hrest : c.name ∉
          (rest.map (fun col => (col.name, f col))).map Prod.fst := by
        rw [List.map_map]
        exact hnd.1
      rw [countContrib_of_not_mem _ _ _ hrest]
      simp
    · have hcol : ¬(col.name = c.name) := by
        intro hcn
        exact hnd.1 (hcn ▸ List.mem_map.2 ⟨c, hc', rfl⟩)
      rw [if_neg hcol, ih c hnd.2 hc' k]
      simp

/-- Groups of the contribution fold over columns, counted for one
column's name: the name lies in exactly one group per distinct
contributed key. -/
theorem contribFold_countP {κ : Type} [DecidableEq κ]
    (f : ColumnConfig → List κ) (cols : List ColumnConfig)
    (c : ColumnConfig) (hnd : (cols.map (·.name)).Nodup) (hc : c ∈ cols) :
    (contribFold (cols.map (fun col => (col.name, f col))) []).countP
      (fun g => decide (c.name ∈ g.2)) = (f c).dedup.length := by
  set entries := cols.map (fun col => (col.name, f col)) with hentries
  set G := contribFold entries [] with hG
  have hkeysnd : (G.map Prod.fst).Nodup :=
    keys_contribFold_nodup entries [] (by simp)
  have hcount : ∀ k x, (groupOf G k).count x = countContrib entries k x := by
    intro k x
    have := groupOf_contribFold_count entries [] k x
    simpa [groupOf] using this
  have hmem : ∀ g ∈ G, (c.name ∈ g.2 ↔ g.1 ∈ f c) := by
    intro g hg
    have hgroup : g.2 = groupOf G g.1 := by
      unfold groupOf
      rw [find?_mem_nodup_keys G g hkeysnd hg]
      rfl
    rw [hgroup, ← List.count_pos_iff, hcount, hentries,
      countContrib_name f cols c hnd hc, List.count_pos_iff]
  have hcong : G.countP (fun g => decide (c.name ∈ g.2)) =
      G.countP (fun g => decide (g.1 ∈ f c)) := by
    apply List.countP_congr
    intro g hg
    simp only [decide_eq_true_eq]
    exact hmem g hg
  rw [hcong]
  have hmap : G.countP (fun g => decide (g.1 ∈ f c)) =
      (G.map Prod.fst).countP (fun k => decide (k ∈ f c)) := by
    rw [List.countP_map]
    rfl
  rw [hmap]
  apply countP_mem_eq_dedup_length _ _ hkeysnd
  intro k hk
  rw [keys_contribFold_mem]
  exact Or.inr ⟨(c.name, f c), List.mem_map.2 ⟨c, hc, rfl⟩, hk⟩

/-- `group_by_normalization` is the contribution fold where each column
contributes its pipeline's steps. -/
theorem group_by_normalization_eq (cfg : ColumnsConfig) :
    cfg.group_by_normalization =
      contribFold
        (cfg.columns.map (fun col => (col.name, col.normalization.getD []))) [] := by
  unfold ColumnsConfig.group_by_normalization contribFold
  rw [List.foldl_map]
  congr 1
  funext groups col
  cases col.normalization <;> rfl

/-- `group_by_normalization_pipeline` is the contribution fold where
each column contributes its whole pipeline as a single key. -/
theorem group_by_normalization_pipeline_eq (cfg : ColumnsConfig) :
    cfg.group_by_normalization_pipeline =
      contribFold
        (cfg.columns.map (fun col => (col.name, [col.normalization.getD []]))) [] := by
  unfold ColumnsConfig.group_by_normalization_pipeline contribFold
  rw [List.foldl_map]
  congr 1

end Grouping

/-- C4 amended: with pairwise-distinct column names, a column's name
appears in exactly as many groups of `group_by_normalization()` as its
pipeline has *distinct* steps — hence in exactly N groups when its N
steps are pairwise distinct, and in no group when it has no pipeline.
(With duplicated steps the duplicate occurrences land in one shared
group, so the group count drops below N; see the counterexample.) -/
theorem c4_group_membership (cfg : ColumnsConfig) (c : ColumnConfig)
    (hnd : (cfg.columns.map (·.name)).Nodup) (hc : c ∈ cfg.columns) :
    (cfg.group_by_normalization).countP (fun g => decide (c.name ∈ g.2)) =
      (c.normalization.getD []).dedup.length := by
  rw [group_by_normalization_eq]
  exact contribFold_countP (fun col => col.normalization.getD []) cfg.columns c
    hnd hc

/-- C4 witness: a column with the two distinct steps `strip`, `lower`
appears in exactly 2 groups; its sibling without a pipeline appears in
none. -/
theorem c4_witness :
    (ColumnsConfig.group_by_normalization
        { name := "g", description := "", author := "", date := "",
          columns := [
            { name := "a", dtype := "string", description := none,
              aliases := ["a"], na_values := none, fill_na := none,
              reviews := none,
              normalization := some [⟨"strip", []⟩, ⟨"lower", []⟩] },
            { name := "b", dtype := "string", description := none,
              aliases := ["b"], na_values := none, fill_na := none,
              reviews := none, normalization := none }] }).countP
      (fun g => decide ("a" ∈ g.2)) =
      ((some [(⟨"strip", []⟩ : CallSpec), ⟨"lower", []⟩]).getD []).dedup.length := by
  have h := c4_group_membership
    { name := "g", description := "", author := "", date := "",
      columns := [
        { name := "a", dtype := "string", description := none,
          aliases := ["a"], na_values := none, fill_na := none,
          reviews := none,
          normalization := some [⟨"strip", []⟩, ⟨"lower", []⟩] },
        { name := "b", dtype := "string", description := none,
          aliases := ["b"], na_values := none, fill_na := none,
          reviews := none, normalization := none }] }
    { name := "a", dtype := "string", description := none,
      aliases := ["a"], na_values := none, fill_na := none,
      reviews := none,
      normalization := some [⟨"strip", []⟩, ⟨"lower", []⟩] }
    (by decide) (by decide)
  exact h

/-- C4 counterexample: a validly constructed column whose pipeline has
2 steps (the same spec twice, accepted through the pre-parsed tuple
shape) appears in only 1 group of `group_by_normalization()`, not 2:
both occurrences collapse into one group whose member list repeats the
name. -/
theorem c4_counterexample :
    (mkColumnConfig
        { name := "c", dtype := "string", description := none,
          aliases := .anone, na_values := .nnone, fill_na := none,
          reviews := .pnone,
          normalization := .pspecs [⟨"strip", []⟩, ⟨"strip", []⟩] }).map
      (fun col =>
        ((ColumnsConfig.group_by_normalization
            { name := "g", description := "", author := "", date := "",
              columns := [col] }).countP (fun g => decide ("c" ∈ g.2)),
          (col.normalization.getD []).length))
      = .ok (1, 2) ∧ (1 : Nat) ≠ 2 :=
  ⟨by rfl, by decide⟩

/-- C10: `group_by_normalization_pipeline()` has pairwise-distinct
pipeline keys; with pairwise-distinct column names every column's name
appears in exactly one group; and a column whose pipeline is `None` is
in the group keyed by the empty pipeline (shared by all such columns,
the key being unique). -/
theorem c10_pipeline_grouping (cfg : ColumnsConfig) (col : ColumnConfig)
    (hnd : (cfg.columns.map (·.name)).Nodup) (hc : col ∈ cfg.columns) :
    ((cfg.group_by_normalization_pipeline).map Prod.fst).Nodup ∧
      (cfg.group_by_normalization_pipeline).countP
        (fun g => decide (col.name ∈ g.2)) = 1 ∧
      (col.normalization = none →
        ∃ g ∈ cfg.group_by_normalization_pipeline,
          g.1 = [] ∧ col.name ∈ g.2) := by
  refine ⟨?_, ?_, ?_⟩
  · rw [group_by_normalization_pipeline_eq]
    exact keys_contribFold_nodup _ [] (by simp)
  · rw [group_by_normalization_pipeline_eq]
    have h := contribFold_countP (fun col => [col.normalization.getD []])
      cfg.columns col hnd hc
    simpa using h
  · intro hnone
    rw [group_by_normalization_pipeline_eq]
    set entries :=
      cfg.columns.map (fun col => (col.name, [col.normalization.getD []]))
      with he
    set G := contribFold entries [] with hGdef
    have hkeysnd : (G.map Prod.fst).Nodup :=
      keys_contribFold_nodup entries [] (by simp)
    have hkmem : ([] : List CallSpec) ∈ G.map Prod.fst := by
      rw [hGdef, he, keys_contribFold_mem]
      exact Or.inr ⟨(col.name, [col.normalization.getD []]),
        List.mem_map.2 ⟨col, hc, rfl⟩, by simp [hnone]⟩
    obtain ⟨g, hg, hg1⟩ := List.mem_map.1 hkmem
    refine ⟨g, hg, hg1, ?_⟩
    have hgroup : g.2 = groupOf G g.1 := by
      unfold groupOf
      rw [find?_mem_nodup_keys G g hkeysnd hg]
      rfl
    rw [hgroup, ← List.count_pos_iff]
    have hcount := groupOf_contribFold_count entries [] g.1 col.name
    have hzero : groupOf ([] : List (List CallSpec × List String)) g.1 = [] := rfl
    rw [hzero] at hcount
    rw [show (groupOf G g.1) = groupOf (contribFold entries []) g.1 from rfl,
      hcount]
    rw [he, countContrib_name (fun col => [col.normalization.getD []])
      cfg.columns col hnd hc]
    rw [hnone, hg1]
    simp

/-! ### Claim C2: `convert_to_na` matches by equality only -/

/-- Masked replacement over a mask computed by `map`. -/
theorem zip_mask_map (p : Val → Bool) (A : Val) :
    ∀ xs : List Val,
      ((xs.map p).zip xs).map (fun mv => if mv.1 then A else mv.2) =
        xs.map (fun v => if p v then A else v) := by
  intro xs
  induction xs with
  | nil => rfl
  | cons x xs ih => simp [ih]

/-- Masked replacement when the carried cells were rewritten first. -/
theorem zip_mask_map' (p : Val → Bool) (g : Val → Val) (A : Val) :
    ∀ xs : List Val,
      ((xs.map p).zip (xs.map g)).map (fun mv => if mv.1 then A else mv.2) =
        xs.map (fun v => if p v then A else g v) := by
  intro xs
  induction xs with
  | nil => rfl
  | cons x xs ih => simp [ih]

/-- `isin` membership is monotone under `filter`. -/
theorem pyEqMem_filter (v : Val) (q : Val → Bool) :
    ∀ l : List Val, Val.pyEqMem v (l.filter q) = true → Val.pyEqMem v l = true := by
  intro l
  induction l with
  | nil => intro h; exact h
  | cons w l ih =>
    intro h
    by_cases hq : q w
    · rw [List.filter_cons_of_pos hq] at h
      rw [Val.pyEqMem] at h ⊢
      rcases Bool.or_eq_true_iff.1 h with h | h
      · exact Bool.or_eq_true_iff.2 (Or.inl h)
      · exact Bool.or_eq_true_iff.2 (Or.inr (ih h))
    · rw [List.filter_cons_of_neg hq] at h
      rw [Val.pyEqMem]
      exact Bool.or_eq_true_iff.2 (Or.inr (ih h))

/-- Replacing the matching entries of a table keeps the looked-up
column in step. -/
theorem lookup_map_replace (cname : String) (nc : Column) :
    ∀ (t : Table) (col : Column), t.lookup cname = some col →
      (t.map (fun e => if e.1 == cname then (e.1, nc) else e)).lookup cname =
        some nc := by
  intro t
  induction t with
  | nil => intro col h; simp at h
  | cons e rest ih =>
    intro col h
    by_cases he : e.1 = cname
    · have hb : (e.1 == cname) = true := beq_iff_eq.2 he
      simp only [List.map_cons, if_pos hb]
      rw [show ((e.1, nc) : String × Column).1 = cname from he]
      simp [List.lookup_cons]
    · have hb : (e.1 == cname) = false := beq_eq_false_iff_ne.2 he
      have hcb : (cname == e.1) = false := beq_eq_false_iff_ne.2 (Ne.symm he)
      simp only [List.map_cons, hb, Bool.false_eq_true, if_false]
      simp only [List.lookup, hcb] at h ⊢
      exact ih col h

/-- C2 amended: in the NA-conversion phase, for every present column of
a normalized dtype, an entry is replaced by the missing sentinel if and
only if it is `isin` the configured markers — Python `==` equality
against each marker.  Compiled-pattern markers are compared by the same
equality; they are never regex-tested against the entries (see the
counterexample). -/
theorem c2_na_conversion_is_equality (t : Table) (cname : String)
    (col : Column) (nas : List Val)
    (hcol : t.lookup cname = some col) (hdt : col.dtype ∈ ALL_DTYPES) :
    ∃ t', convertColumnToNa t cname nas = .ok t' ∧
      ∃ col', t'.lookup cname = some col' ∧
        col'.cells = col.cells.map
          (fun v => if Val.pyEqMem v nas then Val.vNA else v) := by
  unfold convertColumnToNa
  simp only [hcol]
  rw [if_pos hdt]
  by_cases hcat : col.dtype ∈ CATEGORICAL_DTYPES
  · rw [if_pos hcat]
    refine ⟨_, rfl, ?_⟩
    refine ⟨_, lookup_map_replace cname _ t col hcol, ?_⟩
    show ((col.cells.map (fun v => Val.pyEqMem v nas)).zip
        (col.cells.map (fun v =>
          if Val.pyEqMem v (nas.filter (fun v => Val.pyEqMem v col.categories))
          then Val.vNA else v))).map
        (fun mv => if mv.1 then Val.vNA else mv.2) = _
    rw [zip_mask_map']
    refine List.map_congr_left (fun v _ => ?_)
    by_cases hv : Val.pyEqMem v nas = true
    · rw [if_pos hv, if_pos hv]
    · rw [if_neg hv, if_neg hv]
      have hrem : ¬ (Val.pyEqMem v
          (nas.filter (fun v => Val.pyEqMem v col.categories)) = true) :=
        fun hc => hv (pyEqMem_filter v _ nas hc)
      rw [if_neg hrem]
  · rw [if_neg hcat]
    refine ⟨_, rfl, ?_⟩
    refine ⟨_, lookup_map_replace cname _ t col hcol, ?_⟩
    show ((col.cells.map (fun v => Val.pyEqMem v nas)).zip col.cells).map
        (fun mv => if mv.1 then Val.vNA else mv.2) = _
    rw [zip_mask_map]

/-- C2 witness: a string column with markers `["NA"]`; the equal entry
becomes the sentinel, the other entries survive. -/
theorem c2_witness :
    ∃ t', convertColumnToNa
        [("c", { dtype := "string", cells := [.vstr "x", .vstr "NA"],
                 categories := [] })] "c" [.vstr "NA"] = .ok t' ∧
      ∃ col', t'.lookup "c" = some col' ∧
        col'.cells = [Val.vstr "x", Val.vstr "NA"].map
          (fun v => if Val.pyEqMem v [.vstr "NA"] then Val.vNA else v) :=
  c2_na_conversion_is_equality
    [("c", { dtype := "string", cells := [.vstr "x", .vstr "NA"],
             categories := [] })] "c"
    { dtype := "string", cells := [.vstr "x", .vstr "NA"], categories := [] }
    [.vstr "NA"] (by rfl) (by decide)

/-- C2 counterexample: the claim says a compiled-pattern marker matches
entries as a regex test.  The literal regex `abc` matches the entry
`"abc"` (as `specRegexMatchesLiteral` records), yet `convert_to_na`
leaves the entry untouched: `isin` compares the string against the
pattern object by equality, which never holds. -/
theorem c2_counterexample :
    specRegexMatchesLiteral "abc" "abc" = true ∧
      convertToNa
        [("c", { dtype := "string", cells := [.vstr "abc"], categories := [] })]
        [("c", some (.vtuple [.vpattern "abc"]))] =
      .ok [("c", { dtype := "string", cells := [.vstr "abc"],
                   categories := [] })] := by
  constructor
  · rfl
  · simp [convertToNa, convertColumnToNa, naListOf, ALL_DTYPES, STRING_DTYPES,
      NUMERIC_DTYPES, DATE_DTYPES, CATEGORICAL_DTYPES, BOOLEAN_DTYPES,
      Val.pyEqMem, Val.pyEq, Val.numVal, List.lookup]

/-! ### Claim C5: the alias index is first-wins -/

/-- One insertion step of `_build_index`, seen through `lookup`. -/
theorem lookup_indexAdd (idx : List (String × ColumnConfig)) (a x : String)
    (col : ColumnConfig) :
    (indexAdd idx a col).lookup x =
      (idx.lookup x).or (if x = a then some col else none) := by
  unfold indexAdd
  by_cases h : idx.any (fun e => e.1 == a) = true
  · rw [if_pos h]
    by_cases hx : x = a
    · subst hx
      have hsome : (idx.lookup x).isSome := by
        rw [List.lookup_isSome_iff]
        obtain ⟨e, he, heq⟩ := List.any_eq_true.1 h
        exact ⟨e, he, by simpa using (beq_iff_eq.1 heq).symm⟩
      obtain ⟨v, hv⟩ := Option.isSome_iff_exists.1 hsome
      rw [hv]
      rfl
    · rw [if_neg hx, Option.or_none]
  · rw [if_neg h, List.lookup_append]
    congr 1
    by_cases hx : x = a
    · subst hx
      simp
    · rw [if_neg hx]
      have hba : (x == a) = false := beq_eq_false_iff_ne.2 hx
      simp [List.lookup_cons, hba]

/-- Folding one column's aliases into the index, seen through
`lookup`. -/
theorem lookup_aliasFold (as : List String) :
    ∀ (idx : List (String × ColumnConfig)) (col : ColumnConfig) (x : String),
      ((as.foldl (fun i a => indexAdd i a col) idx).lookup x) =
        (idx.lookup x).or (if x ∈ as then some col else none) := by
  induction as with
  | nil =>
    intro idx col x
    simp
  | cons a as ih =>
    intro idx col x
    rw [List.foldl_cons, ih, lookup_indexAdd, Option.or_assoc]
    congr 1
    by_cases hx : x = a
    · subst hx
      simp
    · rw [if_neg hx]
      by_cases hmem : x ∈ as
      · simp [hmem, hx]
      · simp [hmem, hx]

/-- `_build_index` over a trailing accumulator. -/
theorem lookup_buildIndex_gen (cols : List ColumnConfig) :
    ∀ (idx : List (String × ColumnConfig)) (x : String),
      ((cols.foldl
          (fun i col => col.aliases.foldl (fun i a => indexAdd i a col) i)
          idx).lookup x) =
        (idx.lookup x).or (cols.find? (fun col => decide (x ∈ col.aliases))) := by
  induction cols with
  | nil =>
    intro idx x
    simp
  | cons col rest ih =>
    intro idx x
    rw [List.foldl_cons, ih, lookup_aliasFold, Option.or_assoc]
    congr 1
    by_cases hmem : x ∈ col.aliases
    · rw [if_pos hmem, List.find?_cons_of_pos _ (by simpa using hmem)]
      rfl
    · rw [if_neg hmem, List.find?_cons_of_neg _ (by simpa using hmem)]
      rfl

/-- The alias index realizes first-owner lookup: `_index[x]` is the
earliest-declared column having `x` among its aliases. -/
theorem lookup_buildIndex (cols : List ColumnConfig) (x : String) :
    (buildIndex cols).lookup x =
      cols.find? (fun col => decide (x ∈ col.aliases)) := by
  unfold buildIndex
  rw [lookup_buildIndex_gen]
  rfl

/-- C5: for every column `c` of a `ColumnsConfig` and every alias `a`
of `c`, mapping access on `a` returns the earliest-declared column
claiming `a` — that is, `c` itself unless some earlier-declared column
also claims `a` (first-wins). -/
theorem c5_alias_first_wins (cfg : ColumnsConfig)
    (pre post : List ColumnConfig) (c : ColumnConfig) (a : String)
    (hsplit : cfg.columns = pre ++ c :: post) (ha : a ∈ c.aliases) :
    cfg.getitem a =
      .ok ((pre.find? (fun col => decide (a ∈ col.aliases))).getD c) := by
  unfold ColumnsConfig.getitem
  rw [lookup_buildIndex, hsplit, List.find?_append,
    List.find?_cons_of_pos _ (by simpa using ha)]
  cases hf : pre.find? (fun col => decide (a ∈ col.aliases)) with
  | none => rfl
  | some c0 => rfl

/-- C5 witness: two columns both claim alias `x`; looking up `x`
returns the earlier column (first-wins). -/
theorem c5_witness :
    ColumnsConfig.getitem
        { name := "g", description := "", author := "", date := "",
          columns := [
            { name := "a", dtype := "string", description := none,
              aliases := ["a", "x"], na_values := none, fill_na := none,
              reviews := none, normalization := none },
            { name := "b", dtype := "string", description := none,
              aliases := ["b", "x"], na_values := none, fill_na := none,
              reviews := none, normalization := none }] } "x" =
      .ok { name := "a", dtype := "string", description := none,
            aliases := ["a", "x"], na_values := none, fill_na := none,
            reviews := none, normalization := none } := by
  have h := c5_alias_first_wins
    { name := "g", description := "", author := "", date := "",
      columns := [
        { name := "a", dtype := "string", description := none,
          aliases := ["a", "x"], na_values := none, fill_na := none,
          reviews := none, normalization := none },
        { name := "b", dtype := "string", description := none,
          aliases := ["b", "x"], na_values := none, fill_na := none,
          reviews := none, normalization := none }] }
    [{ name := "a", dtype := "string", description := none,
       aliases := ["a", "x"], na_values := none, fill_na := none,
       reviews := none, normalization := none }]
    []
    { name := "b", dtype := "string", description := none,
      aliases := ["b", "x"], na_values := none, fill_na := none,
      reviews := none, normalization := none }
    "x" (by rfl) (by decide)
  rw [h]
  rfl

/-- C10 witness: two pipeline-less columns share the single group keyed
by the empty pipeline, and each appears in exactly one group. -/
theorem c10_witness :
    ((ColumnsConfig.group_by_normalization_pipeline
        { name := "g", description := "", author := "", date := "",
          columns := [
            { name := "a", dtype := "string", description := none,
              aliases := ["a"], na_values := none, fill_na := none,
              reviews := none, normalization := none },
            { name := "b", dtype := "string", description := none,
              aliases := ["b"], na_values := none, fill_na := none,
              reviews := none, normalization := none }] }).map Prod.fst).Nodup ∧
      (ColumnsConfig.group_by_normalization_pipeline
        { name := "g", description := "", author := "", date := "",
          columns := [
            { name := "a", dtype := "string", description := none,
              aliases := ["a"], na_values := none, fill_na := none,
              reviews := none, normalization := none },
            { name := "b", dtype := "string", description := none,
              aliases := ["b"], na_values := none, fill_na := none,
              reviews := none, normalization := none }] }).countP
        (fun g => decide ("a" ∈ g.2)) = 1 ∧
      ((none : Option (List CallSpec)) = none →
        ∃ g ∈ ColumnsConfig.group_by_normalization_pipeline
          { name := "g", description := "", author := "", date := "",
            columns := [
              { name := "a", dtype := "string", description := none,
                aliases := ["a"], na_values := none, fill_na := none,
                reviews := none, normalization := none },
              { name := "b", dtype := "string", description := none,
                aliases := ["b"], na_values := none, fill_na := none,
                reviews := none, normalization := none }] },
          g.1 = [] ∧ "a" ∈ g.2) := by
  have h := c10_pipeline_grouping
    { name := "g", description := "", author := "", date := "",
      columns := [
        { name := "a", dtype := "string", description := none,
          aliases := ["a"], na_values := none, fill_na := none,
          reviews := none, normalization := none },
        { name := "b", dtype := "string", description := none,
          aliases := ["b"], na_values := none, fill_na := none,
          reviews := none, normalization := none }] }
    { name := "a", dtype := "string", description := none,
      aliases := ["a"], na_values := none, fill_na := none,
      reviews := none, normalization := none }
    (by decide) (by decide)
  exact h

/-! ### Claim C6: the `to_dict` / `from_dict` round trip -/

/-- `_cast_string` is idempotent: a successful cast yields a
non-string (which passes through any further cast), and a failed cast
returns the string unchanged. -/
theorem castString_idem (v : Val) : castString (castString v) = castString v := by
  cases v with
  | vstr s =>
    rcases hp : parseCasting s with _ | ⟨d, val⟩
    · simp [castString, hp]
    · by_cases hre : d = "re.Pattern"
      · simp [castString, hp, hre]
      · by_cases hts : d = "pd.Timestamp"
        · simp [castString, hp, hre, hts]
        · simp [castString, hp, hre, hts]
  | vnone => rfl
  | vNA => rfl
  | vbool b => rfl
  | vint n => rfl
  | vfloat q => rfl
  | vpattern p => rfl
  | vtimestamp t => rfl
  | vlist xs => rfl
  | vtuple xs => rfl
  | vset xs => rfl
  | vfrozenset xs => rfl
  | vdict kvs => rfl

/-- `__post_init__` stores na values already cast, so casting every
stored value again is the identity. -/
theorem naValuesOf_casted (n : NAValuesInput) (xs : List Val)
    (h : naValuesOf n = some xs) : xs.map castString = xs := by
  cases n with
  | nnone => exact absurd h (by simp [naValuesOf])
  | nstr s =>
    simp only [naValuesOf, Option.some.injEq] at h
    subst h
    rw [List.map_map]
    exact List.map_congr_left (fun c _ => castString_idem _)
  | nseq l =>
    simp only [naValuesOf, Option.some.injEq] at h
    subst h
    rw [List.map_map]
    exact List.map_congr_left (fun v _ => castString_idem _)
  | nscalar v =>
    simp only [naValuesOf, Option.some.injEq] at h
    subst h
    simp [castString_idem]

/-- The stored fill value is already cast, so casting again is the
identity. -/
theorem fillNa_roundtrip (o : Option Val) :
    (o.map castString).map castString = o.map castString := by
  cases o with
  | none => rfl
  | some v =>
    show some (castString (castString v)) = some (castString v)
    rw [castString_idem]

/-- `set.add` keeps deduplication. -/
theorem setAdd_nodup (xs : List String) (x : String) (h : xs.Nodup) :
    (setAdd xs x).Nodup := by
  unfold setAdd
  by_cases hx : x ∈ xs
  · rw [if_pos hx]; exact h
  · rw [if_neg hx]
    simp [List.nodup_append, h, hx]

/-- After `aliases.add(name)` the name is a member of the stored set. -/
theorem mem_setAdd_self (xs : List String) (x : String) : x ∈ setAdd xs x := by
  unfold setAdd
  by_cases hx : x ∈ xs
  · rw [if_pos hx]; exact hx
  · rw [if_neg hx]; exact List.mem_append_right xs (List.mem_singleton.2 rfl)

/-- Adding an element already present leaves the set unchanged. -/
theorem setAdd_mem_id (xs : List String) (x : String) (h : x ∈ xs) :
    setAdd xs x = xs := by
  unfold setAdd; rw [if_pos h]

/-- `set()` of a list of strings is deduplicated. -/
theorem setOfList_nodup (xs : List String) : (setOfList xs).Nodup := by
  suffices key : ∀ (l acc : List String), acc.Nodup → (l.foldl setAdd acc).Nodup by
    exact key xs [] List.nodup_nil
  intro l
  induction l with
  | nil => intro acc hacc; exact hacc
  | cons x tl ih =>
    intro acc hacc
    rw [List.foldl_cons]
    exact ih _ (setAdd_nodup acc x hacc)

/-- `set()` of an already-deduplicated list keeps it unchanged (in the
model's first-insertion order). -/
theorem setOfList_id_of_nodup (xs : List String) (h : xs.Nodup) :
    setOfList xs = xs := by
  suffices key : ∀ (l acc : List String), (acc ++ l).Nodup →
      l.foldl setAdd acc = acc ++ l by
    simpa using key xs [] (by simpa using h)
  intro l
  induction l with
  | nil => intro acc hacc; simp
  | cons x tl ih =>
    intro acc hacc
    have hx : x ∉ acc := by
      rcases List.nodup_append.1 hacc with ⟨-, -, hdisj⟩
      exact fun hmem => hdisj hmem (List.mem_cons_self x tl)
    rw [List.foldl_cons,
      show setAdd acc x = acc ++ [x] from by unfold setAdd; rw [if_neg hx]]
    rw [List.append_cons] at hacc
    rw [ih (acc ++ [x]) hacc]
    exact (List.append_cons acc x tl).symm

/-- Every aliases shape normalizes to a deduplicated list. -/
theorem aliasesOf_nodup (a : AliasesInput) : (aliasesOf a).Nodup := by
  cases a with
  | anone => exact List.nodup_nil
  | astr s => exact List.nodup_singleton s
  | aseq xs => exact setOfList_nodup xs
  | aother v => exact List.nodup_nil

/-- String-keyed `dict` insertion with a fresh key appends. -/
theorem strDictInsert_not_mem {α : Type} (kvs : List (String × α)) (k : String)
    (v : α) (h : k ∉ kvs.map Prod.fst) :
    strDictInsert kvs k v = kvs ++ [(k, v)] := by
  have hany : kvs.any (fun kv => kv.1 == k) = false := by
    rw [List.any_eq_false]
    intro kv hkv
    rw [Bool.not_eq_true]
    exact beq_eq_false_iff_ne.2
      (fun he => h (List.mem_map.2 ⟨kv, hkv, he⟩))
  unfold strDictInsert
  rw [hany]
  simp

/-- A string-keyed pair list without duplicate keys is a fixed point of
dict construction. -/
theorem strDictOfPairs_id {α : Type} (ps : List (String × α))
    (h : (ps.map Prod.fst).Nodup) : strDictOfPairs ps = ps := by
  suffices key : ∀ (l acc : List (String × α)),
      ((acc ++ l).map Prod.fst).Nodup →
      l.foldl (fun acc kv => strDictInsert acc kv.1 kv.2) acc = acc ++ l by
    simpa using key ps [] (by simpa using h)
  intro l
  induction l with
  | nil => intro acc hacc; simp
  | cons kv tl ih =>
    obtain ⟨k0, v0⟩ := kv
    intro acc hacc
    rw [List.foldl_cons]
    have hk : k0 ∉ acc.map Prod.fst := by
      rw [List.map_append] at hacc
      rcases List.nodup_append.1 hacc with ⟨-, -, hdisj⟩
      exact fun hmem => hdisj hmem (by simp)
    rw [strDictInsert_not_mem acc k0 v0 hk]
    rw [List.append_cons] at hacc
    rw [ih (acc ++ [(k0, v0)]) hacc]
    exact (List.append_cons acc (k0, v0) tl).symm

/-- Python `==` on two string values is string equality. -/
theorem pyEq_vstr_iff (a b : Val) (ha : isStrVal a = true)
    (hb : isStrVal b = true) : Val.pyEq a b = true ↔ a = b := by
  cases a <;> simp [isStrVal] at ha
  cases b <;> simp [isStrVal] at hb
  simp [Val.pyEq]

/-- `dict` insertion under Python `==` with a fresh string key
appends. -/
theorem pyDictInsert_not_mem (kvs : List (Val × Val)) (k v : Val)
    (hstr : isStrVal k = true)
    (hall : ∀ kv ∈ kvs, isStrVal kv.1 = true)
    (h : k ∉ kvs.map Prod.fst) :
    Val.pyDictInsert kvs k v = kvs ++ [(k, v)] := by
  have hany : kvs.any (fun kv => Val.pyEq kv.1 k) = false := by
    rw [List.any_eq_false]
    intro kv hkv hpe
    have he := (pyEq_vstr_iff kv.1 k (hall kv hkv) hstr).1 hpe
    exact h (List.mem_map.2 ⟨kv, hkv, he⟩)
  unfold Val.pyDictInsert
  rw [hany]
  simp

/-- A string-keyed pair list without duplicate keys is a fixed point of
Python `dict` construction. -/
theorem pyDictOfPairs_id (ps : List (Val × Val))
    (hall : ∀ kv ∈ ps, isStrVal kv.1 = true)
    (h : (ps.map Prod.fst).Nodup) : Val.pyDictOfPairs ps = ps := by
  suffices key : ∀ (l acc : List (Val × Val)),
      (∀ kv ∈ acc ++ l, isStrVal kv.1 = true) →
      ((acc ++ l).map Prod.fst).Nodup →
      l.foldl (fun acc kv => Val.pyDictInsert acc kv.1 kv.2) acc = acc ++ l by
    simpa using key ps [] (by simpa using hall) (by simpa using h)
  intro l
  induction l with
  | nil => intro acc hall' hacc; simp
  | cons kv tl ih =>
    obtain ⟨k0, v0⟩ := kv
    intro acc hall' hacc
    rw [List.foldl_cons]
    have hk : k0 ∉ acc.map Prod.fst := by
      rw [List.map_append] at hacc
      rcases List.nodup_append.1 hacc with ⟨-, -, hdisj⟩
      exact fun hmem => hdisj hmem (by simp)
    have hk0 : isStrVal k0 = true :=
      hall' (k0, v0) (List.mem_append_right acc (List.mem_cons_self _ tl))
    rw [pyDictInsert_not_mem acc k0 v0 hk0
      (fun kv hkv => hall' kv (List.mem_append_left _ hkv)) hk]
    rw [List.append_cons] at hacc hall'
    rw [ih (acc ++ [(k0, v0)]) hall' hacc]
    exact (List.append_cons acc (k0, v0) tl).symm

/-- Replacing each value of a pair list keeps the keys. -/
theorem map_fst_map_snd (f : Val → Val) (ps : List (Val × Val)) :
    (ps.map (fun kv => (kv.1, f kv.2))).map Prod.fst = ps.map Prod.fst := by
  induction ps with
  | nil => rfl
  | cons kv tl ih => simp [ih]

/-- Unfreezing each value and then recasting-refreezing composes. -/
theorem map_snd_unfreeze_refreeze (ps : List (Val × Val)) :
    (ps.map (fun kv => (kv.1, unfreeze kv.2))).map
      (fun kv => (kv.1, freeze (castString kv.2))) =
      ps.map (fun kv => (kv.1, freeze (castString (unfreeze kv.2)))) := by
  induction ps with
  | nil => rfl
  | cons kv tl ih => simp [ih]

/-- The keys of the serialized pipeline mapping are the method names. -/
theorem map_fst_specs (g : CallSpec → Val) (l : List CallSpec) :
    (l.map (fun s => (s.method_name, g s))).map Prod.fst =
      l.map CallSpec.method_name := by
  induction l with
  | nil => rfl
  | cons s tl ih => simp [ih]

/-- A stable spec is reconstructed exactly by `from_map` applied to its
own `params_to_dict`. -/
theorem from_map_params_to_dict (spec : CallSpec) (h : specStable spec) :
    CallSpec.from_map spec.method_name
      (.vdict (CallSpec.params_to_dict spec)) = spec := by
  obtain ⟨hstr, hnd, hsort, hfix⟩ := h
  have hdict : CallSpec.params_to_dict spec =
      spec.params.map (fun kv => (kv.1, unfreeze kv.2)) := by
    unfold CallSpec.params_to_dict
    apply pyDictOfPairs_id
    · intro kv hkv
      rcases List.mem_map.1 hkv with ⟨kv0, hkv0, hkv0e⟩
      rw [← hkv0e]
      exact List.all_eq_true.1 hstr kv0 hkv0
    · rw [map_fst_map_snd unfreeze spec.params]
      exact hnd
  rw [hdict]
  show (⟨spec.method_name,
      sortPairsByKey ((spec.params.map (fun kv => (kv.1, unfreeze kv.2))).map
        (fun kv => (kv.1, freeze (castString kv.2))))⟩ : CallSpec) = spec
  rw [map_snd_unfreeze_refreeze]
  have hid : spec.params.map
      (fun kv => (kv.1, freeze (castString (unfreeze kv.2)))) = spec.params := by
    have h1 : spec.params.map
        (fun kv => (kv.1, freeze (castString (unfreeze kv.2)))) =
        spec.params.map id :=
      List.map_congr_left (fun kv hkv => by rw [hfix kv hkv]; rfl)
    rw [h1, List.map_id]
  rw [hid, hsort]

/-- A stable pipeline survives `_pipeline_to_yaml` followed by
`_parse_pipeline`. -/
theorem parse_pipelineToYaml (p : Option (List CallSpec))
    (h : pipelineStable p) : parsePipeline (pipelineToYaml p) = .ok p := by
  rcases p with _ | l
  · rfl
  rcases l with _ | ⟨s1, l⟩
  · rfl
  rcases l with _ | ⟨s2, rest⟩
  · obtain ⟨-, hstable⟩ := h
    have hred : pipelineToYaml (some [s1]) =
        (if s1.params = [] then PipelineInput.pstr s1.method_name
         else PipelineInput.pmap (strDictOfPairs [(s1.method_name,
           Val.vdict (CallSpec.params_to_dict s1))])) := rfl
    by_cases hp : s1.params = []
    · rw [hred, if_pos hp]
      show Except.ok (some [CallSpec.from_map s1.method_name .vnone]) = _
      have hs : (⟨s1.method_name, []⟩ : CallSpec) = s1 := by rw [← hp]
      show Except.ok (some [(⟨s1.method_name, []⟩ : CallSpec)]) = _
      rw [hs]
    · rw [hred, if_neg hp]
      show Except.ok (some [CallSpec.from_map s1.method_name
        (.vdict (CallSpec.params_to_dict s1))]) = _
      rw [from_map_params_to_dict s1 (hstable s1 (List.mem_singleton.2 rfl))]
  · obtain ⟨hnd, hstable⟩ := h
    have hyaml : pipelineToYaml (some (s1 :: s2 :: rest)) =
        .pmap ((s1 :: s2 :: rest).map (fun spec =>
          (spec.method_name, Val.vdict (CallSpec.params_to_dict spec)))) := by
      show PipelineInput.pmap (strDictOfPairs _) = _
      rw [strDictOfPairs_id]
      rw [map_fst_specs]
      exact hnd
    rw [hyaml]
    show Except.ok (some (((s1 :: s2 :: rest).map (fun spec =>
        (spec.method_name, Val.vdict (CallSpec.params_to_dict spec)))).map
      (fun kv => CallSpec.from_map kv.1 kv.2))) = _
    rw [List.map_map]
    have hmap : (s1 :: s2 :: rest).map ((fun kv : String × Val =>
          CallSpec.from_map kv.1 kv.2) ∘ (fun spec =>
          (spec.method_name, Val.vdict (CallSpec.params_to_dict spec)))) =
        (s1 :: s2 :: rest).map id :=
      List.map_congr_left (fun s hs => from_map_params_to_dict s (hstable s hs))
    rw [hmap, List.map_id]

/-- C6 amended: for every `ColumnConfig` produced by the constructor
whose two pipelines are stable — pairwise-distinct method names, and
each spec's stored params string-keyed, duplicate-free, key-sorted and
fixed under unfreeze-recast-refreeze (as `from_map` leaves them for
ordinary parameter values) — `from_dict(name, to_dict(c))` succeeds and
returns a config equal to `c` in every field.  Without the distinct
method names the round trip can collapse pipeline steps (see the
counterexample). -/
theorem c6_roundtrip (inp : ColumnConfigInput) (c : ColumnConfig)
    (hc : mkColumnConfig inp = .ok c)
    (hrev : pipelineStable c.reviews)
    (hnorm : pipelineStable c.normalization) :
    roundTrip c = .ok c := by
  unfold mkColumnConfig at hc
  rcases hr : parsePipeline inp.reviews with e | revs
  · simp only [hr] at hc
    exact Except.noConfusion hc
  · simp only [hr] at hc
    rcases hn : parsePipeline inp.normalization with e | norm
    · simp only [hn] at hc
      exact Except.noConfusion hc
    · simp only [hn] at hc
      have hceq := (Except.ok.inj hc).symm
      subst hceq
      unfold roundTrip ColumnConfig.from_dict ColumnConfig.to_dict mkColumnConfig
      dsimp only
      rw [parse_pipelineToYaml revs hrev, parse_pipelineToYaml norm hnorm]
      dsimp only
      rw [show ∀ xs, aliasesOf (.aseq xs) = setOfList xs from fun xs => rfl]
      rw [setOfList_id_of_nodup _
          (setAdd_nodup _ _ (aliasesOf_nodup inp.aliases)),
        setAdd_mem_id _ _ (mem_setAdd_self _ _),
        fillNa_roundtrip inp.fill_na]
      rcases hna : naValuesOf inp.na_values with _ | xs
      · simp only [hna]
        rfl
      · simp only [hna]
        show Except.ok _ = _
        rw [show naValuesOf (.nseq xs) = some (xs.map castString) from rfl,
          naValuesOf_casted inp.na_values xs hna]

/-- C6 witness: a config with a one-step parameterless normalization
pipeline round-trips to itself. -/
theorem c6_witness :
    roundTrip ⟨"c", "string", none, ["c"], none, none, none,
        some [⟨"strip", []⟩]⟩ =
      .ok ⟨"c", "string", none, ["c"], none, none, none,
        some [⟨"strip", []⟩]⟩ :=
  c6_roundtrip
    ⟨"c", "string", none, .anone, .nnone, none, .pnone, .pstr "strip"⟩
    ⟨"c", "string", none, ["c"], none, none, none, some [⟨"strip", []⟩]⟩
    (by rfl) trivial
    ⟨by decide, fun s hs => by
      rw [List.mem_singleton.1 hs]
      exact ⟨rfl, List.nodup_nil, rfl,
        fun kv hkv => absurd hkv (List.not_mem_nil kv)⟩⟩

/-- C6 counterexample: the claim promises the round trip for every
validly constructed config, but a pipeline with two equal-named steps —
valid through the pre-parsed `CallSpec`-tuple shape — collapses to one
step, because `to_dict` serializes a pipeline as a mapping keyed by
method name. -/
theorem c6_counterexample :
    mkColumnConfig ⟨"c", "string", none, .anone, .nnone, none, .pnone,
        .pspecs [⟨"strip", []⟩, ⟨"strip", []⟩]⟩ =
      .ok ⟨"c", "string", none, ["c"], none, none, none,
        some [⟨"strip", []⟩, ⟨"strip", []⟩]⟩ ∧
    roundTrip ⟨"c", "string", none, ["c"], none, none, none,
        some [⟨"strip", []⟩, ⟨"strip", []⟩]⟩ =
      .ok ⟨"c", "string", none, ["c"], none, none, none,
        some [⟨"strip", []⟩]⟩ := ⟨rfl, rfl⟩

/-! ### Claim C7: `_unfreeze` against `_freeze` -/

/-- `_freeze` leaves container-free values untouched. -/
theorem freeze_scalar (v : Val) (h : isScalar v = true) : freeze v = v := by
  cases v <;> first | rfl | simp [isScalar] at h

/-- `_unfreeze` leaves container-free values untouched. -/
theorem unfreeze_scalar (v : Val) (h : isScalar v = true) : unfreeze v = v := by
  cases v <;> first | rfl | simp [isScalar] at h

/-- Python `==` is reflexive on container-free values. -/
theorem pyEq_refl_scalar (v : Val) (h : isScalar v = true) :
    Val.pyEq v v = true := by
  cases v <;> simp [isScalar] at h <;> simp [Val.pyEq, Val.numVal]

/-- Membership under Python `==` follows from an equal member. -/
theorem pyEqMem_of_pyEq (x y : Val) (l : List Val) (hy : y ∈ l)
    (hxy : Val.pyEq x y = true) : Val.pyEqMem x l = true := by
  induction l with
  | nil => cases hy
  | cons z tl ih =>
    rw [Val.pyEqMem]
    rcases List.mem_cons.1 hy with heq | hy2
    · subst heq
      exact Bool.or_eq_true_iff.2 (Or.inl hxy)
    · exact Bool.or_eq_true_iff.2 (Or.inr (ih hy2))

/-- The subset test of `==` on sets holds pointwise. -/
theorem pyEqSub_of_forall (xs ys : List Val)
    (h : ∀ x ∈ xs, Val.pyEqMem x ys = true) : Val.pyEqSub xs ys = true := by
  induction xs with
  | nil => rw [Val.pyEqSub]
  | cons x tl ih =>
    rw [Val.pyEqSub]
    exact Bool.and_eq_true_iff.2 ⟨h x (List.mem_cons_self x tl),
      ih (fun z hz => h z (List.mem_cons_of_mem x hz))⟩

/-- A failed membership test under `==` fails against every element. -/
theorem pyEq_false_of_not_mem (x : Val) (l : List Val)
    (h : Val.pyEqMem x l = false) : ∀ z ∈ l, Val.pyEq x z = false := by
  induction l with
  | nil => intro z hz; cases hz
  | cons w tl ih =>
    rw [Val.pyEqMem] at h
    rcases Bool.or_eq_false_iff.1 h with ⟨h1, h2⟩
    intro z hz
    rcases List.mem_cons.1 hz with heq | hz2
    · subst heq; exact h1
    · exact ih h2 z hz2

/-- Python `set()` of a `==`-deduplicated list is the identity. -/
theorem pySetOfList_id (xs : List Val)
    (hnd : pyNodup xs = true) : Val.pySetOfList xs = xs := by
  suffices key : ∀ (l acc : List Val),
      (∀ y ∈ acc, ∀ z ∈ l, Val.pyEq y z = false) →
      pyNodup l = true →
      l.foldl (fun acc x => if acc.any (fun y => Val.pyEq y x) then acc
        else acc ++ [x]) acc = acc ++ l by
    simpa [Val.pySetOfList] using
      key xs [] (fun y hy => absurd hy (List.not_mem_nil y)) hnd
  intro l
  induction l with
  | nil => intro acc h2 h3; simp
  | cons x tl ih =>
    intro acc h2 h3
    have hnx : Val.pyEqMem x tl = false ∧ pyNodup tl = true := by
      rw [pyNodup] at h3
      have h3a := Bool.and_eq_true_iff.1 h3
      refine ⟨?_, h3a.2⟩
      have hb := h3a.1
      simp only [Bool.not_eq_true'] at hb
      exact hb
    have hany : acc.any (fun y => Val.pyEq y x) = false := by
      rw [List.any_eq_false]
      intro y hy
      rw [Bool.not_eq_true]
      exact h2 y hy x (List.mem_cons_self x tl)
    rw [List.foldl_cons]
    simp only [hany, Bool.false_eq_true, if_false]
    have hdisj : ∀ y ∈ acc ++ [x], ∀ z ∈ tl, Val.pyEq y z = false := by
      intro y hy z hz
      rcases List.mem_append.1 hy with hy2 | hy2
      · exact h2 y hy2 z (List.mem_cons_of_mem x hz)
      · rw [List.mem_singleton.1 hy2]
        exact pyEq_false_of_not_mem x tl hnx.1 z hz
    rw [ih (acc ++ [x]) hdisj hnx.2]
    exact (List.append_cons acc x tl).symm

/-- `_unfreeze`'s elementwise list worker is a `map`. -/
theorem unfreezeList_eq_map : ∀ xs : List Val,
    unfreezeList xs = xs.map unfreeze := by
  intro xs; induction xs with
  | nil => rfl
  | cons x xs ih => simp [unfreezeList, ih]

/-- A tuple of 2-tuples unfreezes pairwise. -/
theorem unfreezePairs_pairify : ∀ ps : List (Val × Val),
    unfreezePairs (ps.map (fun kv => Val.vtuple [kv.1, kv.2])) =
      ps.map (fun kv => (kv.1, unfreeze kv.2)) := by
  intro ps; induction ps with
  | nil => rfl
  | cons kv tl ih => simp [unfreezePairs, ih]

/-- `UnfreezableList` holds elementwise. -/
theorem UnfreezableList_forall : ∀ xs : List Val, UnfreezableList xs = true →
    ∀ x ∈ xs, Unfreezable x = true := by
  intro xs
  induction xs with
  | nil => intro h x hx; cases hx
  | cons y tl ih =>
    intro h x hx
    rw [UnfreezableList] at h
    rcases Bool.and_eq_true_iff.1 h with ⟨h1, h2⟩
    rcases List.mem_cons.1 hx with heq | hx2
    · subst heq; exact h1
    · exact ih h2 x hx2

/-- `UnfreezablePairs` holds elementwise on the values. -/
theorem UnfreezablePairs_forall : ∀ kvs : List (Val × Val),
    UnfreezablePairs kvs = true → ∀ kv ∈ kvs, Unfreezable kv.2 = true := by
  intro kvs
  induction kvs with
  | nil => intro h kv hkv; cases hkv
  | cons e tl ih =>
    intro h kv hkv
    rw [UnfreezablePairs] at h
    rcases Bool.and_eq_true_iff.1 h with ⟨h1, h2⟩
    rcases List.mem_cons.1 hkv with heq | hkv2
    · subst heq; exact h1
    · exact ih h2 kv hkv2

/-- Elementwise Python equality of a mapped list against the original. -/
theorem pyEqList_map_self (g : Val → Val) : ∀ xs : List Val,
    (∀ x ∈ xs, Val.pyEq (g x) x = true) →
    Val.pyEqList (xs.map g) xs = true := by
  intro xs
  induction xs with
  | nil => intro h; rw [List.map_nil, Val.pyEqList]
  | cons x tl ih =>
    intro h
    rw [List.map_cons, Val.pyEqList]
    exact Bool.and_eq_true_iff.2 ⟨h x (List.mem_cons_self x tl),
      ih (fun z hz => h z (List.mem_cons_of_mem x hz))⟩

/-- The 2-tuple test characterized by length. -/
theorem isPair2_len : ∀ l : List Val, isPair2 (.vtuple l) = decide (l.length = 2)
  | [] => rfl
  | [a] => rfl
  | [a, b] => rfl
  | a :: b :: c :: tl => by
    have h2 : ¬((a :: b :: c :: tl).length = 2) := by
      simp only [List.length_cons]; omega
    rw [decide_eq_false h2]
    rfl

/-- `_freeze` produces a 2-tuple exactly from the values
`freezesToPair2` describes. -/
theorem isPair2_freeze (v : Val) : isPair2 (freeze v) = freezesToPair2 v := by
  cases v with
  | vlist xs => rcases xs with _ | ⟨a, _ | ⟨b, _ | ⟨c, xs⟩⟩⟩ <;> rfl
  | vtuple xs => rcases xs with _ | ⟨a, _ | ⟨b, _ | ⟨c, xs⟩⟩⟩ <;> rfl
  | vdict kvs =>
    rw [show freeze (.vdict kvs) = .vtuple ((sortPairsByKey (freezePairs kvs)).map
        (fun kv => Val.vtuple [kv.1, kv.2])) from rfl]
    rw [isPair2_len]
    have hperm : List.Perm (sortPairsByKey (freezePairs kvs))
        (freezePairs kvs) := List.perm_insertionSort _ _
    have hlen : ((sortPairsByKey (freezePairs kvs)).map
        (fun kv => Val.vtuple [kv.1, kv.2])).length = kvs.length := by
      rw [List.length_map, hperm.length_eq, freezePairs_eq_map, List.length_map]
    rw [hlen]
    rcases kvs with _ | ⟨a, _ | ⟨b, _ | ⟨c, tl⟩⟩⟩
    · rfl
    · rfl
    · rfl
    · have h2 : ¬((a :: b :: c :: tl).length = 2) := by
        simp only [List.length_cons]; omega
      rw [decide_eq_false h2]
      rfl
  | vnone => rfl
  | vNA => rfl
  | vbool b => rfl
  | vint n => rfl
  | vfloat q => rfl
  | vstr s => rfl
  | vpattern p => rfl
  | vtimestamp t => rfl
  | vset xs => rfl
  | vfrozenset xs => rfl

/-- `pyEqFind` with a distinct-string-keyed mapping locates the unique
pair carrying the probed key. -/
theorem pyEqFind_of_mem (kv0 : Val × Val) (w : Val)
    (hw : Val.pyEq w kv0.2 = true) :
    ∀ kvs : List (Val × Val),
      (∀ kv ∈ kvs, isStrVal kv.1 = true) →
      (kvs.map Prod.fst).Nodup → kv0 ∈ kvs →
      Val.pyEqFind kv0.1 w kvs = true := by
  intro kvs
  induction kvs with
  | nil => intro _ _ hkv0; cases hkv0
  | cons e tl ih =>
    obtain ⟨k1, v1⟩ := e
    intro hall hnd hkv0
    rw [Val.pyEqFind]
    rcases List.mem_cons.1 hkv0 with heq | hmem
    · have hks : isStrVal k1 = true := hall (k1, v1) (List.mem_cons_self _ _)
      rw [heq] at hw
      rw [heq]
      rw [if_pos ((pyEq_vstr_iff k1 k1 hks hks).2 rfl)]
      exact hw
    · have hk1 : kv0.1 ≠ k1 := by
        intro he
        rw [List.map_cons] at hnd
        rcases List.nodup_cons.1 hnd with ⟨hnotin, -⟩
        have hm : kv0.1 ∈ tl.map Prod.fst := List.mem_map_of_mem Prod.fst hmem
        rw [he] at hm
        exact hnotin hm
      have hcond : Val.pyEq kv0.1 k1 = false := by
        rw [Bool.eq_false_iff]
        intro hpe
        exact hk1 ((pyEq_vstr_iff kv0.1 k1
          (hall kv0 hkv0) (hall (k1, v1) (List.mem_cons_self _ _))).1 hpe)
      rw [if_neg (Bool.eq_false_iff.1 hcond)]
      exact ih (fun kv hkv => hall kv (List.mem_cons_of_mem _ hkv))
        (by rw [List.map_cons] at hnd; exact (List.nodup_cons.1 hnd).2) hmem

/-- The pairwise dict inclusion test holds pointwise. -/
theorem pyEqPairsIn_of_forall (a b : List (Val × Val))
    (h : ∀ kv ∈ a, Val.pyEqFind kv.1 kv.2 b = true) :
    Val.pyEqPairsIn a b = true := by
  induction a with
  | nil => rw [Val.pyEqPairsIn]
  | cons kv tl ih =>
    obtain ⟨k1, v1⟩ := kv
    rw [Val.pyEqPairsIn]
    exact Bool.and_eq_true_iff.2 ⟨h (k1, v1) (List.mem_cons_self _ _),
      ih (fun z hz => h z (List.mem_cons_of_mem _ hz))⟩

/-- C7 amended: on the unfreezable domain — no tuples, no nonempty
sequence whose elements all freeze to 2-tuples, sets and frozensets of
deduplicated container-free values, nonempty string-keyed mappings with
distinct keys — `_unfreeze` inverts `_freeze` up to Python `==`
(mappings may come back key-reordered and frozensets come back as
`set`, which `==` treats as equal).  Outside the domain the inversion
fails, even up to `==` (see the counterexample: the empty mapping comes
back as an empty list). -/
theorem c7_unfreeze_freeze : ∀ v : Val, Unfreezable v = true →
    Val.pyEq (unfreeze (freeze v)) v = true := by
  intro v
  induction v using Val.inductionOn with
  | hnone => intro h; simp [freeze, unfreeze, Val.pyEq]
  | hNA => intro h; simp [freeze, unfreeze, Val.pyEq]
  | hbool b =>
    intro h
    rw [freeze_scalar _ (by rfl), unfreeze_scalar _ (by rfl)]
    exact pyEq_refl_scalar _ (by rfl)
  | hint n =>
    intro h
    rw [freeze_scalar _ (by rfl), unfreeze_scalar _ (by rfl)]
    exact pyEq_refl_scalar _ (by rfl)
  | hfloat q =>
    intro h
    rw [freeze_scalar _ (by rfl), unfreeze_scalar _ (by rfl)]
    exact pyEq_refl_scalar _ (by rfl)
  | hstr s =>
    intro h
    rw [freeze_scalar _ (by rfl), unfreeze_scalar _ (by rfl)]
    exact pyEq_refl_scalar _ (by rfl)
  | hpattern p =>
    intro h
    rw [freeze_scalar _ (by rfl), unfreeze_scalar _ (by rfl)]
    exact pyEq_refl_scalar _ (by rfl)
  | htimestamp t =>
    intro h
    rw [freeze_scalar _ (by rfl), unfreeze_scalar _ (by rfl)]
    exact pyEq_refl_scalar _ (by rfl)
  | htuple xs ih => intro h; simp [Unfreezable] at h
  | hlist xs ih =>
    intro h
    rw [Unfreezable] at h
    rcases Bool.and_eq_true_iff.1 h with ⟨hguard, hlst⟩
    have hall : ∀ x ∈ xs, Unfreezable x = true := UnfreezableList_forall xs hlst
    rw [show freeze (.vlist xs) = .vtuple (freezeList xs) from rfl,
      freezeList_eq_map]
    rcases Bool.or_eq_true_iff.1 hguard with hemp | hnp
    · have hx : xs = [] := List.isEmpty_iff.1 hemp
      subst hx
      simp [unfreeze, unfreezeList, Val.pyEq, Val.pyEqList]
    · have hfp : (xs.map freeze).all isPair2 = false := by
        simp only [Bool.not_eq_true'] at hnp
        rcases List.all_eq_false.1 hnp with ⟨x, hx, hpx⟩
        apply List.all_eq_false.2
        refine ⟨freeze x, List.mem_map_of_mem freeze hx, ?_⟩
        rw [isPair2_freeze]
        exact hpx
      have hunf : unfreeze (.vtuple (xs.map freeze)) =
          .vlist (unfreezeList (xs.map freeze)) := by
        simp only [unfreeze, hfp, Bool.and_false, Bool.false_eq_true, if_false]
      rw [hunf, unfreezeList_eq_map, List.map_map]
      simp only [Val.pyEq]
      exact pyEqList_map_self (unfreeze ∘ freeze) xs
        (fun x hx => ih x hx (hall x hx))
  | hset xs ih =>
    intro h
    rw [Unfreezable] at h
    rcases Bool.and_eq_true_iff.1 h with ⟨hsc, hnd⟩
    have hsc2 : ∀ x ∈ xs, isScalar x = true := fun x hx =>
      List.all_eq_true.1 hsc x hx
    have hmapf : xs.map freeze = xs := by
      have h1 : xs.map freeze = xs.map id :=
        List.map_congr_left (fun x hx => freeze_scalar x (hsc2 x hx))
      rw [h1, List.map_id]
    have hmapu : xs.map unfreeze = xs := by
      have h1 : xs.map unfreeze = xs.map id :=
        List.map_congr_left (fun x hx => unfreeze_scalar x (hsc2 x hx))
      rw [h1, List.map_id]
    have hufz : unfreeze (.vfrozenset xs) = .vset xs := by
      rw [show unfreeze (.vfrozenset xs) =
        .vset (Val.pySetOfList (unfreezeList xs)) from rfl,
        unfreezeList_eq_map, hmapu, pySetOfList_id xs hnd]
    have hfz : freeze (.vset xs) = .vfrozenset xs := by
      rw [show freeze (.vset xs) =
        .vfrozenset (Val.pySetOfList (freezeList xs)) from rfl,
        freezeList_eq_map, hmapf, pySetOfList_id xs hnd]
    rw [hfz, hufz]
    have hsub : Val.pyEqSub xs xs = true :=
      pyEqSub_of_forall xs xs (fun x hx =>
        pyEqMem_of_pyEq x x xs hx (pyEq_refl_scalar x (hsc2 x hx)))
    simp [Val.pyEq, hsub]
  | hfrozenset xs ih =>
    intro h
    rw [Unfreezable] at h
    rcases Bool.and_eq_true_iff.1 h with ⟨hsc, hnd⟩
    have hsc2 : ∀ x ∈ xs, isScalar x = true := fun x hx =>
      List.all_eq_true.1 hsc x hx
    have hmapu : xs.map unfreeze = xs := by
      have h1 : xs.map unfreeze = xs.map id :=
        List.map_congr_left (fun x hx => unfreeze_scalar x (hsc2 x hx))
      rw [h1, List.map_id]
    have hufz : unfreeze (.vfrozenset xs) = .vset xs := by
      rw [show unfreeze (.vfrozenset xs) =
        .vset (Val.pySetOfList (unfreezeList xs)) from rfl,
        unfreezeList_eq_map, hmapu, pySetOfList_id xs hnd]
    rw [show freeze (.vfrozenset xs) = .vfrozenset xs from rfl, hufz]
    have hsub : Val.pyEqSub xs xs = true :=
      pyEqSub_of_forall xs xs (fun x hx =>
        pyEqMem_of_pyEq x x xs hx (pyEq_refl_scalar x (hsc2 x hx)))
    simp [Val.pyEq, hsub]
  | hdict kvs ih =>
    intro h
    rw [Unfreezable] at h
    rcases Bool.and_eq_true_iff.1 h with ⟨h12, hup⟩
    rcases Bool.and_eq_true_iff.1 h12 with ⟨hne, hkey⟩
    rw [strKeyOk] at hkey
    rcases Bool.and_eq_true_iff.1 hkey with ⟨hstr, hndd⟩
    have hnd : (kvs.map Prod.fst).Nodup := of_decide_eq_true hndd
    have hstr2 : ∀ kv ∈ kvs, isStrVal kv.1 = true := fun kv hkv =>
      List.all_eq_true.1 hstr kv hkv
    have hne2 : kvs ≠ [] := by
      intro he
      rw [he] at hne
      simp at hne
    have hv : ∀ kv ∈ kvs, Unfreezable kv.2 = true :=
      UnfreezablePairs_forall kvs hup
    have hSperm : List.Perm (sortPairsByKey (freezePairs kvs))
        (kvs.map (fun kv => (kv.1, freeze kv.2))) := by
      rw [freezePairs_eq_map]
      exact List.perm_insertionSort _ _
    have hLall : ((sortPairsByKey (freezePairs kvs)).map
        (fun kv => Val.vtuple [kv.1, kv.2])).all isPair2 = true := by
      apply List.all_eq_true.2
      intro x hx
      rcases List.mem_map.1 hx with ⟨kv, hkv, rfl⟩
      rfl
    have hLlen : ((sortPairsByKey (freezePairs kvs)).map
        (fun kv => Val.vtuple [kv.1, kv.2])).length = kvs.length := by
      rw [List.length_map, hSperm.length_eq, List.length_map]
    have hLne : ((sortPairsByKey (freezePairs kvs)).map
        (fun kv => Val.vtuple [kv.1, kv.2])).isEmpty = false := by
      rw [Bool.eq_false_iff]
      intro he
      have hz : kvs.length = 0 := by
        rw [← hLlen]
        exact List.length_eq_zero.2 (List.isEmpty_iff.1 he)
      exact hne2 (List.length_eq_zero.1 hz)
    have hguard : (!((sortPairsByKey (freezePairs kvs)).map
          (fun kv => Val.vtuple [kv.1, kv.2])).isEmpty &&
        ((sortPairsByKey (freezePairs kvs)).map
          (fun kv => Val.vtuple [kv.1, kv.2])).all isPair2) = true := by
      rw [hLne, hLall, Bool.and_true]
      rfl
    have hunf : unfreeze (freeze (.vdict kvs)) =
        .vdict (Val.pyDictOfPairs ((sortPairsByKey (freezePairs kvs)).map
          (fun kv => (kv.1, unfreeze kv.2)))) := by
      rw [show freeze (.vdict kvs) =
        .vtuple ((sortPairsByKey (freezePairs kvs)).map
          (fun kv => Val.vtuple [kv.1, kv.2])) from rfl]
      rw [show unfreeze (.vtuple ((sortPairsByKey (freezePairs kvs)).map
          (fun kv => Val.vtuple [kv.1, kv.2]))) =
        (if !((sortPairsByKey (freezePairs kvs)).map
              (fun kv => Val.vtuple [kv.1, kv.2])).isEmpty &&
            ((sortPairsByKey (freezePairs kvs)).map
              (fun kv => Val.vtuple [kv.1, kv.2])).all isPair2 then
          Val.vdict (Val.pyDictOfPairs (unfreezePairs ((sortPairsByKey
            (freezePairs kvs)).map (fun kv => Val.vtuple [kv.1, kv.2]))))
        else Val.vlist (unfreezeList ((sortPairsByKey (freezePairs kvs)).map
          (fun kv => Val.vtuple [kv.1, kv.2])))) from rfl]
      rw [if_pos hguard, unfreezePairs_pairify]
    have hMperm : List.Perm ((sortPairsByKey (freezePairs kvs)).map Prod.fst)
        (kvs.map Prod.fst) := by
      have h1 := hSperm.map Prod.fst
      rw [map_fst_map_snd freeze kvs] at h1
      exact h1
    have hMfst : ((sortPairsByKey (freezePairs kvs)).map
        (fun kv => (kv.1, unfreeze kv.2))).map Prod.fst =
        (sortPairsByKey (freezePairs kvs)).map Prod.fst :=
      map_fst_map_snd unfreeze _
    have hMnd : (((sortPairsByKey (freezePairs kvs)).map
        (fun kv => (kv.1, unfreeze kv.2))).map Prod.fst).Nodup := by
      rw [hMfst]
      exact hMperm.nodup_iff.2 hnd
    have hMstr : ∀ kv ∈ (sortPairsByKey (freezePairs kvs)).map
        (fun kv => (kv.1, unfreeze kv.2)), isStrVal kv.1 = true := by
      intro kv hkv
      rcases List.mem_map.1 hkv with ⟨p, hp, hpe⟩
      have hp2 : p ∈ kvs.map (fun kv => (kv.1, freeze kv.2)) :=
        hSperm.mem_iff.1 hp
      rcases List.mem_map.1 hp2 with ⟨kv0, hkv0, hkv0e⟩
      have e1 : kv.1 = kv0.1 := by rw [← hpe, ← hkv0e]
      rw [e1]
      exact hstr2 kv0 hkv0
    rw [hunf, pyDictOfPairs_id _ hMstr hMnd]
    simp only [Val.pyEq]
    refine Bool.and_eq_true_iff.2 ⟨?_, ?_⟩
    · rw [List.length_map, hSperm.length_eq, List.length_map]
      simp
    · apply pyEqPairsIn_of_forall
      intro kv hkv
      rcases List.mem_map.1 hkv with ⟨p, hp, hpe⟩
      have hp2 : p ∈ kvs.map (fun kv => (kv.1, freeze kv.2)) :=
        hSperm.mem_iff.1 hp
      rcases List.mem_map.1 hp2 with ⟨kv0, hkv0, hkv0e⟩
      have e1 : kv.1 = kv0.1 := by rw [← hpe, ← hkv0e]
      have e2 : kv.2 = unfreeze (freeze kv0.2) := by rw [← hpe, ← hkv0e]
      rw [e1, e2]
      exact pyEqFind_of_mem kv0 (unfreeze (freeze kv0.2))
        ((ih kv0 hkv0).2 (hv kv0 hkv0)) kvs hstr2 hnd hkv0

/-- C7 witness: a string-keyed mapping to a list of scalars survives
the freeze/unfreeze round trip up to Python `==`. -/
theorem c7_witness :
    Val.pyEq (unfreeze (freeze (.vdict [(.vstr "a", .vlist [.vint 1])])))
      (.vdict [(.vstr "a", .vlist [.vint 1])]) = true :=
  c7_unfreeze_freeze (.vdict [(.vstr "a", .vlist [.vint 1])]) (by rfl)

/-- C7 counterexample: the claim demands exact inversion for every
value at arbitrary nesting depth, but the empty mapping freezes to the
empty tuple, which `_unfreeze` returns as an empty list — not a
mapping, and not even Python-`==` to one. -/
theorem c7_counterexample :
    unfreeze (freeze (.vdict [])) = .vlist [] ∧
      Val.pyEq (unfreeze (freeze (.vdict []))) (.vdict []) = false := by
  constructor
  · rfl
  · rw [show unfreeze (freeze (.vdict [])) = Val.vlist [] from rfl]
    simp [Val.pyEq, Val.numVal]

end Verbosa
